import Mathlib

/-!
HashMap / Dictionary: shallow embedding and verification.

Embedding of `src/HashMap.hpp` (template class `HashMap<KeyT, ValueT>`) and
`src/Dictionary.hpp` (class `Dictionary`).

Modelling conventions.

* The C++ `int` fields `_size`, `_capacity` and the `int` locals are modelled as
  unbounded `Int`.  Signed overflow is undefined behaviour in C++; it can only
  occur at `_capacity * 2` with `_capacity = 2^30`, and lies outside the model.
* `_buckets` (a heap array of `_capacity` vectors) is a `List` of buckets.  A
  read outside the list yields the empty bucket and a write outside the list is
  dropped; both are undefined behaviour in C++.  Hash indices of a well-formed
  container are inside the array (`hash_eq_natCast`); the one read the code
  makes at index `_capacity` (the last test of the scan in `operator++`) does
  not influence any result.
* `std::hash<KeyT>` is a parameter `stdHash : K → Nat` (a `size_t` value).
  `KeyT`'s `operator==` and `ValueT`'s `operator!=` are equality and its
  negation (`DecidableEq`), and `ValueT ()` is `Inhabited.default`.
* The `double` comparisons `size / capacity >= 0.75` and `size / capacity < 0.25`
  are exact on `int` operands (0.25 and 0.75 are representable and two distinct
  quotients of 32-bit integers differ by more than the rounding error), so they
  are modelled by integer cross-multiplication with the IEEE results for a
  zero or negative divisor spelled out.
* Loops that need not terminate in every state take a fuel argument.
-/

set_option linter.unusedSectionVars false

namespace HashMapDict

/-- `DEF_CAP` -/
def DEF_CAP : Int := 16

/-- The exceptions thrown by the two classes. -/
inductive Exception where
  | out_of_range
  | length_error
  | InvalidKey
  deriving DecidableEq, Repr

/-- `typedef std::vector<std::pair<KeyT, ValueT>> hashmap_bucket` -/
abbrev hashmap_bucket (K V : Type) := List (K × V)

/-- The data members of `HashMap<KeyT, ValueT>`. -/
structure HashMap (K V : Type) where
  _size : Int
  _capacity : Int
  _buckets : List (hashmap_bucket K V)
  deriving DecidableEq, Repr

/-- `Dictionary` is `HashMap<std::string, std::string>` with `erase` overridden. -/
abbrev Dictionary := HashMap String String

section Memory
variable {K V : Type}

/-- Read of `_buckets[i]`. -/
def bucket_at (bs : List (hashmap_bucket K V)) (i : Int) : hashmap_bucket K V :=
  if i < 0 then [] else bs.getD i.toNat []

/-- The statement `_buckets[i].push_back (kv)`. -/
def push_back_at (bs : List (hashmap_bucket K V)) (i : Int) (kv : K × V) :
    List (hashmap_bucket K V) :=
  if i < 0 then bs else bs.modify (fun b => b ++ [kv]) i.toNat

/-- The statement `_buckets[i].erase (_buckets[i].begin () + index)`. -/
def erase_at (bs : List (hashmap_bucket K V)) (i : Int) (index : Int) :
    List (hashmap_bucket K V) :=
  if i < 0 ∨ index < 0 then bs else bs.modify (fun b => b.eraseIdx index.toNat) i.toNat

/-- The expression `new hashmap_bucket[n]`: `n` empty buckets. -/
def new_buckets (n : Int) : List (hashmap_bucket K V) :=
  List.replicate n.toNat []

end Memory

/-- The conversion `(int) x` of a `size_t` value: the low 32 bits, two's complement. -/
def to_int (x : Nat) : Int :=
  if x % 2 ^ 32 < 2 ^ 31 then ((x % 2 ^ 32 : Nat) : Int) else ((x % 2 ^ 32 : Nat) : Int) - 2 ^ 32

/-- The comparison `(double) size / (double) capacity >= MAX_LOAD` with `MAX_LOAD = 0.75`.
For a zero divisor the quotient is `+inf`, `-inf` or NaN, and only `+inf` compares `>=`. -/
def load_ge_MAX_LOAD (size capacity : Int) : Bool :=
  if 0 < capacity then decide (3 * capacity ≤ 4 * size)
  else if capacity < 0 then decide (4 * size ≤ 3 * capacity)
  else decide (0 < size)

/-- The comparison `(double) size / n_capacity < MIN_LOAD` with `MIN_LOAD = 0.25`.
For a zero divisor the quotient is `+inf`, `-inf` or NaN, and only `-inf` compares `<`. -/
def load_lt_MIN_LOAD (size n_capacity : Int) : Bool :=
  if 0 < n_capacity then decide (4 * size < n_capacity)
  else if n_capacity < 0 then decide (n_capacity < 4 * size)
  else decide (size < 0)

namespace HashMap

section Ops
variable {K V : Type} [DecidableEq K] (stdHash : K → Nat)

/-- `HashMap::hash`: `((int) std::hash<KeyT>() (key)) & (hash_capacity - 1)`. -/
def hash (key : K) (hash_capacity : Int) : Int :=
  Int.land (to_int (stdHash key)) (hash_capacity - 1)

/-- `HashMap::HashMap ()`. -/
def default : HashMap K V :=
  { _capacity := DEF_CAP, _size := 0, _buckets := new_buckets DEF_CAP }

/-- `HashMap::size`. -/
def size (m : HashMap K V) : Int := m._size

/-- `HashMap::capacity`. -/
def capacity (m : HashMap K V) : Int := m._capacity

/-- `HashMap::empty`. -/
def empty (m : HashMap K V) : Bool := decide (m._size = 0)

/-- `HashMap::contains_key`: linear scan of the bucket of `key`. -/
def contains_key (m : HashMap K V) (key : K) : Bool :=
  (bucket_at m._buckets (hash stdHash key m._capacity)).any (fun i => decide (i.1 = key))

/-- `HashMap::at` (both overloads): linear scan of the bucket of `key`, throwing
`std::out_of_range` when the scan finds nothing. -/
def «at» (m : HashMap K V) (key : K) : Except Exception V :=
  match (bucket_at m._buckets (hash stdHash key m._capacity)).find? (fun i => decide (i.1 = key)) with
  | some i => .ok i.2
  | none => .error Exception.out_of_range

/-- `HashMap::bucket_size`. -/
def bucket_size (m : HashMap K V) (key : K) : Except Exception Int :=
  if !contains_key stdHash m key then .error Exception.out_of_range
  else .ok ((bucket_at m._buckets (hash stdHash key m._capacity)).length : Int)

/-- `HashMap::bucket_index`. -/
def bucket_index (m : HashMap K V) (key : K) : Except Exception Int :=
  if !contains_key stdHash m key then .error Exception.out_of_range
  else .ok (hash stdHash key m._capacity)

/-- The data members of `HashMap::ConstIterator`.  The pointer `_kv` is the
position `(bucket, slot)` of the pair it addresses, `none` for `nullptr`; the
container reference `_hash_buckets` is passed to the operations as an argument. -/
structure ConstIterator where
  _kv : Option (Int × Int)
  _bucket : Int
  _index : Int
  deriving DecidableEq, Repr

/-- `HashMap::end` (and `cend`): `ConstIterator (nullptr, *this, 0, _capacity)`. -/
def end_ (m : HashMap K V) : ConstIterator :=
  { _kv := none, _bucket := 0, _index := m._capacity }

/-- The loop of `HashMap::begin` (and `cbegin`) from index `i`, with `fuel` iterations left. -/
def begin_loop (m : HashMap K V) : Nat → Int → ConstIterator
  | 0, _ => end_ m
  | fuel + 1, i =>
    if i < m._capacity then
      if !(bucket_at m._buckets i).isEmpty then
        { _kv := some (i, 0), _bucket := i, _index := 0 }
      else begin_loop m fuel (i + 1)
    else end_ m

/-- `HashMap::begin` (and `cbegin`).  The loop runs at most `_capacity` times. -/
def begin (m : HashMap K V) : ConstIterator :=
  begin_loop m m._capacity.toNat 0

/-- The inner `while` of `ConstIterator::operator++`:
`while (_buckets[_bucket].empty () && _bucket < _capacity) _bucket++`, with `fuel` iterations
left.  As in the source the bucket is read before `_bucket` is compared with `_capacity`; when
`_bucket` has reached `_capacity` the conjunction is false whatever that read yields. -/
def skip_empty (m : HashMap K V) : Nat → Int → Int
  | 0, bucket => bucket
  | fuel + 1, bucket =>
    if (bucket_at m._buckets bucket).isEmpty && decide (bucket < m._capacity) then
      skip_empty m fuel (bucket + 1)
    else bucket

/-- `ConstIterator::operator++` (pre-increment) on a cursor over `m`.  The inner
loop runs at most `_capacity - _bucket` times, which is the fuel it is given. -/
def ConstIterator.next (m : HashMap K V) (it : ConstIterator) : ConstIterator :=
  let index := it._index + 1
  let pos : Int × Int :=
    if index ≥ ((bucket_at m._buckets it._bucket).length : Int) then
      (skip_empty m (m._capacity - (it._bucket + 1)).toNat (it._bucket + 1), 0)
    else (it._bucket, index)
  if pos.1 < m._capacity then
    { _kv := some pos, _bucket := pos.1, _index := pos.2 }
  else
    { _kv := none, _bucket := pos.1, _index := pos.2 }

/-- `ConstIterator::operator==` for two cursors over the same container. -/
def ConstIterator.eq (it rhs : ConstIterator) : Bool :=
  decide (it._kv = rhs._kv)

/-- `ConstIterator::operator*`: the pair addressed by `_kv`, if any. -/
def ConstIterator.deref (m : HashMap K V) (it : ConstIterator) : Option (K × V) :=
  match it._kv with
  | none => none
  | some (b, i) => if i < 0 then none else (bucket_at m._buckets b).get? i.toNat

/-- The pairs visited by `for (const auto &kv: *this)` from cursor `it`, with
`fuel` iterations left: `for (; it != end (); ++it) { kv = *it; ... }`. -/
def traverse_loop (m : HashMap K V) : Nat → ConstIterator → List (K × V)
  | 0, _ => []
  | fuel + 1, it =>
    if it.eq (end_ m) then []
    else
      match it.deref m with
      | none => []
      | some kv => kv :: traverse_loop m fuel (it.next m)

/-- The pairs visited by `for (const auto &kv: *this)`, in order.  Every
iteration visits one more stored pair, so the number of pairs plus one is
enough fuel (`traverse_eq_flatten`). -/
def traverse (m : HashMap K V) : List (K × V) :=
  traverse_loop m ((m._buckets.map List.length).sum + 1) (begin m)

/-- `HashMap::re_hash`. -/
def re_hash (m : HashMap K V) (new_capacity : Int) : HashMap K V :=
  if new_capacity = m._capacity then m
  else
    let n_buckets := (traverse m).foldl
      (fun nb kv => push_back_at nb (hash stdHash kv.1 new_capacity) kv) (new_buckets new_capacity)
    { m with _buckets := n_buckets, _capacity := new_capacity }

/-- `HashMap::insert`: the returned flag and the container afterwards. -/
def insert (m : HashMap K V) (key : K) (value : V) : Bool × HashMap K V :=
  if contains_key stdHash m key then (false, m)
  else
    let m1 : HashMap K V :=
      { m with _buckets := push_back_at m._buckets (hash stdHash key m._capacity) (key, value),
               _size := m._size + 1 }
    if load_ge_MAX_LOAD m1._size m1._capacity then (true, re_hash stdHash m1 (m1._capacity * 2))
    else (true, m1)

/-- The scan loop of `HashMap::erase` over the bucket of `key`, from slot `i`:
`if (key == _buckets[k][i].first) index = i`.  The local `index` starts
uninitialised (`none`).  The bound `bucket_size (key)` of the loop is the length
of that bucket: the loop runs only when the key is contained, and it does not
modify the bucket. -/
def erase_scan (key : K) : hashmap_bucket K V → Int → Option Int → Option Int
  | [], _, index => index
  | kv :: rest, i, index => erase_scan key rest (i + 1) (if key = kv.1 then some i else index)

/-- The shrink loop of `HashMap::erase`:
`while ((double) _size / n_capacity < MIN_LOAD) n_capacity /= 2`, with `fuel`
tests of the condition left; `none` when the fuel runs out. -/
def shrink_loop (size : Int) : Nat → Int → Option Int
  | 0, _ => none
  | fuel + 1, n_capacity =>
    if load_lt_MIN_LOAD size n_capacity then shrink_loop size fuel (n_capacity.tdiv 2)
    else some n_capacity

/-- `HashMap::erase` (the base class): the returned flag and the container
afterwards.  `none` when the local `index` is read uninitialised or the shrink
loop does not finish within `fuel` tests of its condition. -/
def erase (fuel : Nat) (m : HashMap K V) (key : K) : Option (Bool × HashMap K V) :=
  if !contains_key stdHash m key then some (false, m)
  else
    let k := hash stdHash key m._capacity
    match erase_scan key (bucket_at m._buckets k) 0 none with
    | none => none
    | some index =>
      let m1 : HashMap K V :=
        { m with _buckets := erase_at m._buckets k index, _size := m._size - 1 }
      match shrink_loop m1._size fuel m1._capacity with
      | none => none
      | some n_capacity => some (true, re_hash stdHash m1 (max n_capacity 1))

/-- `HashMap::clear`. -/
def clear (m : HashMap K V) : HashMap K V :=
  { m with _buckets := new_buckets m._capacity, _size := 0 }

/-- The mutable `HashMap::operator[]`: the container afterwards and the value
the returned reference addresses. -/
def operator_index [Inhabited V] (m : HashMap K V) (key : K) :
    HashMap K V × Except Exception V :=
  let m1 := if !contains_key stdHash m key then (insert stdHash m key Inhabited.default).2 else m
  (m1, «at» stdHash m1 key)

/-- The const `HashMap::operator[]`. -/
def operator_index_const [Inhabited V] (m : HashMap K V) (key : K) : Except Exception V :=
  if !contains_key stdHash m key then .ok Inhabited.default else «at» stdHash m key

/-- The test `!other.contains_key (kv.first) || other.at (kv.first) != kv.second`
of `HashMap::operator==`.  The second operand is evaluated only when the key is
contained, and then `at` scans the same bucket and does not throw
(`at_eq_error_iff`). -/
def pair_differs [DecidableEq V] (other : HashMap K V) (kv : K × V) : Bool :=
  if !contains_key stdHash other kv.1 then true
  else
    match «at» stdHash other kv.1 with
    | .ok v => decide (v ≠ kv.2)
    | .error _ => true

/-- `HashMap::operator==`: sizes are compared first, then every pair of `this`
is looked up in `other`, returning false at the first pair that differs. -/
def operator_eq [DecidableEq V] (m other : HashMap K V) : Bool :=
  if m._size ≠ other._size then false
  else (traverse m).all (fun kv => !pair_differs stdHash other kv)

/-- `HashMap::operator!=`. -/
def operator_ne [DecidableEq V] (m other : HashMap K V) : Bool :=
  !operator_eq stdHash m other

end Ops

end HashMap

namespace Dictionary

/-- `Dictionary::erase`: the base `erase`, throwing `InvalidKey` when it returns
false.  The result is the return value or the exception, and the container
afterwards. -/
def erase (stdHash : String → Nat) (fuel : Nat) (d : Dictionary) (key : String) :
    Option (Except Exception Bool × Dictionary) :=
  match HashMap.erase stdHash fuel d key with
  | none => none
  | some (false, d1) => some (.error Exception.InvalidKey, d1)
  | some (true, d1) => some (.ok true, d1)

end Dictionary

section Invariant
variable {K V : Type} [DecidableEq K] (stdHash : K → Nat)

/-- Well-formedness of a container: the bucket array has `_capacity` buckets, and
(1) the capacity is at least 1 and a power of two, (2) `_size` is the total
number of pairs across all buckets, (3) every stored pair lies in the bucket
whose index is `hash (key, _capacity)`, (4) no two stored pairs have equal keys. -/
structure WellFormed (m : HashMap K V) : Prop where
  buckets_length : (m._buckets.length : Int) = m._capacity
  capacity_pow2 : 1 ≤ m._capacity ∧ ∃ n : Nat, m._capacity = 2 ^ n
  size_eq : m._size = (((m._buckets.map List.length).sum : Nat) : Int)
  placement : ∀ (i : Nat) (p : K × V), p ∈ m._buckets.getD i [] →
    HashMap.hash stdHash p.1 m._capacity = (i : Int)
  unique_keys : (m._buckets.flatten.map Prod.fst).Nodup

/-- The container after `insert (kv.first, kv.second)` for each pair of `kvs`, in order. -/
def insert_all (m : HashMap K V) (kvs : List (K × V)) : HashMap K V :=
  kvs.foldl (fun acc kv => (HashMap.insert stdHash acc kv.1 kv.2).2) m

/-- The effect of `insert` of an absent key on `(_size, _capacity)`: `_size++`, then the
capacity is doubled when `(double) _size / _capacity >= MAX_LOAD`. -/
def grow_step (sc : Int × Int) : Int × Int :=
  (sc.1 + 1, if load_ge_MAX_LOAD (sc.1 + 1) sc.2 then sc.2 * 2 else sc.2)

/-- Containers reachable from the default-constructed one by `insert` and `erase` calls. -/
inductive Reachable : HashMap K V → Prop where
  | default : Reachable HashMap.default
  | insert {m : HashMap K V} (key : K) (value : V) :
      Reachable m → Reachable (HashMap.insert stdHash m key value).2
  | erase {m : HashMap K V} (fuel : Nat) (key : K) {r : Bool × HashMap K V} :
      Reachable m → HashMap.erase stdHash fuel m key = some r → Reachable r.2

end Invariant

section Examples

/-- A hash function on `Nat` keys, used in the concrete instances below. -/
def natHash : Nat → Nat := fun n => n

/-- A hash function on `String` keys, used in the concrete instances below. -/
def strHash : String → Nat := fun s => s.length

/-- The default-constructed container after `insert (3, 30)`. -/
def example_map : HashMap Nat Nat :=
  (HashMap.insert natHash (HashMap.default : HashMap Nat Nat) 3 30).2

/-- The default-constructed `Dictionary` after `insert ("x", "1")`. -/
def example_dict : Dictionary :=
  (HashMap.insert strHash (HashMap.default : Dictionary) "x" "1").2

/-- The container `example_map` after `insert (5, 50)`. -/
def example_map2 : HashMap Nat Nat :=
  (HashMap.insert natHash example_map 5 50).2

/-- The container `example_map` re-hashed to capacity 4. -/
def example_map_small : HashMap Nat Nat :=
  HashMap.re_hash natHash example_map 4

end Examples

namespace HashMap

section MoreOps
variable {K V : Type} [DecidableEq K] (stdHash : K → Nat)

/-- `HashMap::HashMap (keys, values)`: the delegated default constructor, the length test that
throws `std::length_error`, then `insert (keys[i], values[i])` for `i = 0, ..., keys.size () - 1`
(the pairs of `keys.zip values` when the lengths agree). -/
def from_vectors (keys : List K) (values : List V) : Except Exception (HashMap K V) :=
  if keys.length ≠ values.length then .error Exception.length_error
  else .ok (insert_all stdHash (HashMap.default : HashMap K V) (keys.zip values))

/-- A write `ref = value` through the reference that the scan of `at (key)` returns: the first
pair of the bucket whose key is `key` gets the value. -/
def assign_first (key : K) (value : V) : hashmap_bucket K V → hashmap_bucket K V
  | [] => []
  | kv :: rest =>
    if kv.1 = key then (kv.1, value) :: rest else kv :: assign_first key value rest

/-- The statement `(*this)[key] = value`: the mutable `operator[]`, then the write through the
reference it returns (the exception of `at` is passed on). -/
def operator_index_assign [Inhabited V] (m : HashMap K V) (key : K) (value : V) :
    Except Exception (HashMap K V) :=
  match operator_index stdHash m key with
  | (_, .error e) => .error e
  | (m1, .ok _) =>
    let k := hash stdHash key m1._capacity
    .ok { m1 with _buckets :=
      if k < 0 then m1._buckets else m1._buckets.modify (assign_first key value) k.toNat }

/-- The indices at which the inner `while` of `ConstIterator::operator++` reads the bucket
array: every test of the condition reads `_buckets[_bucket]` first.  When the fuel of
`skip_empty` is used up, `_bucket` has reached `_capacity` and the condition is tested once
more. -/
def skip_empty_reads (m : HashMap K V) : Nat → Int → List Int
  | 0, bucket => [bucket]
  | fuel + 1, bucket =>
    bucket ::
      (if (bucket_at m._buckets bucket).isEmpty && decide (bucket < m._capacity) then
        skip_empty_reads m fuel (bucket + 1)
      else [])

/-- The indices at which `ConstIterator::operator++` reads the bucket array, in order: the
read of `_buckets[_bucket].size ()`, the reads of the inner `while`, and the read of
`_buckets[_bucket]` for the new `_kv`. -/
def ConstIterator.next_reads (m : HashMap K V) (it : ConstIterator) : List Int :=
  let index := it._index + 1
  let scan : List Int :=
    if index ≥ ((bucket_at m._buckets it._bucket).length : Int) then
      skip_empty_reads m (m._capacity - (it._bucket + 1)).toNat (it._bucket + 1)
    else []
  let bucket := (it.next m)._bucket
  [it._bucket] ++ scan ++ (if bucket < m._capacity then [bucket] else [])

/-- The walk of a cursor over `m` from `it` up to `end ()`:
`for (; it != end (); ++it) { ... *it ... }`, with `fuel` tests of `it != end ()` left.  The
result is the list of the pairs `*it` met, and it is returned only when the cursor has become
equal to `end ()`: `none` when the fuel runs out first, or when a cursor that differs from
`end ()` addresses no pair (its dereference is undefined behaviour). -/
def walk (m : HashMap K V) : Nat → ConstIterator → Option (List (K × V))
  | 0, _ => none
  | fuel + 1, it =>
    if it.eq (end_ m) then some []
    else
      match it.deref m with
      | none => none
      | some kv =>
        match walk m fuel (it.next m) with
        | none => none
        | some rest => some (kv :: rest)

end MoreOps

end HashMap

namespace Dictionary

/-- `Dictionary::update`: `(*this)[start->first] = start->second` for every pair of the range,
in order. -/
def update (stdHash : String → Nat) (d : Dictionary) :
    List (String × String) → Except Exception Dictionary
  | [] => .ok d
  | p :: rest =>
    match HashMap.operator_index_assign stdHash d p.1 p.2 with
    | .error e => .error e
    | .ok d1 => update stdHash d1 rest

end Dictionary

section MoreInvariant
variable {K V : Type} [DecidableEq K] (stdHash : K → Nat)

/-- Containers reachable from the default-constructed one by `insert`, `erase`, mutable
`operator[]` and `clear` calls. -/
inductive ReachableAll [Inhabited V] : HashMap K V → Prop where
  | default : ReachableAll HashMap.default
  | insert {m : HashMap K V} (key : K) (value : V) :
      ReachableAll m → ReachableAll (HashMap.insert stdHash m key value).2
  | erase {m : HashMap K V} (fuel : Nat) (key : K) {r : Bool × HashMap K V} :
      ReachableAll m → HashMap.erase stdHash fuel m key = some r → ReachableAll r.2
  | operator_index {m : HashMap K V} (key : K) :
      ReachableAll m → ReachableAll (HashMap.operator_index stdHash m key).1
  | clear {m : HashMap K V} : ReachableAll m → ReachableAll (HashMap.clear m)

end MoreInvariant

section MoreExamples

/-- The container `example_map` after `erase (3)`: empty, at the floor capacity 1. -/
def example_floor : HashMap Nat Nat :=
  { _size := 0, _capacity := 1, _buckets := [[]] }

/-- The cursor of `example_map` on its only pair, which is in bucket 3. -/
def example_cursor : HashMap.ConstIterator :=
  { _kv := some (3, 0), _bucket := 3, _index := 0 }

end MoreExamples

/-! ## Lists of buckets -/

section BucketLists
variable {α : Type}

theorem getD_modify_eq (f : List α → List α) (bs : List (List α)) (i : Nat)
    (hi : i < bs.length) : (bs.modify f i).getD i [] = f (bs.getD i []) := by
  simp [List.getD_eq_getElem?_getD, List.getElem?_modify_eq, List.getElem?_eq_getElem hi]

theorem getD_modify_ne (f : List α → List α) (bs : List (List α)) {i j : Nat}
    (hij : i ≠ j) : (bs.modify f i).getD j [] = bs.getD j [] := by
  simp [List.getD_eq_getElem?_getD, List.getElem?_modify_ne _ _ hij]

theorem getD_nil_of_length_le (bs : List (List α)) {i : Nat} (hi : bs.length ≤ i) :
    bs.getD i [] = [] := by
  simp [List.getD_eq_getElem?_getD, List.getElem?_eq_none hi]

theorem mem_flatten_iff_getD (bs : List (List α)) (x : α) :
    x ∈ bs.flatten ↔ ∃ i : Nat, i < bs.length ∧ x ∈ bs.getD i [] := by
  rw [List.mem_flatten]
  constructor
  · rintro ⟨l, hl, hx⟩
    obtain ⟨i, hi, rfl⟩ := List.getElem_of_mem hl
    exact ⟨i, hi, by simpa [List.getD_eq_getElem?_getD, List.getElem?_eq_getElem hi] using hx⟩
  · rintro ⟨i, hi, hx⟩
    refine ⟨bs[i], List.getElem_mem hi, ?_⟩
    simpa [List.getD_eq_getElem?_getD, List.getElem?_eq_getElem hi] using hx

theorem flatten_modify_push_perm (bs : List (List α)) (i : Nat) (x : α) (hi : i < bs.length) :
    (bs.modify (fun b => b ++ [x]) i).flatten.Perm (x :: bs.flatten) := by
  obtain ⟨l₁, b, l₂, hbs, _, hmod⟩ := List.exists_of_modify (fun b => b ++ [x]) hi
  rw [hmod, hbs]
  simp only [List.flatten_append, List.flatten_cons, List.append_assoc]
  refine List.Perm.trans ?_ List.perm_middle
  refine List.Perm.append_left _ ?_
  exact List.perm_middle

theorem perm_cons_eraseIdx (b : List α) (j : Nat) (x : α) (hx : b[j]? = some x) :
    b.Perm (x :: b.eraseIdx j) := by
  induction b generalizing j with
  | nil => simp at hx
  | cons a t ih =>
    cases j with
    | zero =>
      simp only [List.getElem?_cons_zero, Option.some.injEq] at hx
      subst hx; simp
    | succ j =>
      simp only [List.getElem?_cons_succ] at hx
      simp only [List.eraseIdx_cons_succ]
      exact (List.Perm.cons a (ih j hx)).trans (List.Perm.swap _ _ _)

theorem flatten_modify_eraseIdx_perm (bs : List (List α)) (i j : Nat) (x : α)
    (hi : i < bs.length) (hx : (bs.getD i [])[j]? = some x) :
    bs.flatten.Perm (x :: (bs.modify (fun b => b.eraseIdx j) i).flatten) := by
  obtain ⟨l₁, b, l₂, hbs, hl, hmod⟩ := List.exists_of_modify (fun b => b.eraseIdx j) hi
  have hb : bs.getD i [] = b := by
    subst hl
    rw [hbs, List.getD_eq_getElem?_getD, List.getElem?_append_right (Nat.le_refl _)]
    simp
  rw [hmod]
  rw [hb] at hx
  rw [hbs]
  simp only [List.flatten_append, List.flatten_cons]
  refine List.Perm.trans ?_ List.perm_middle
  refine List.Perm.append_left _ ?_
  exact List.Perm.append_right _ (perm_cons_eraseIdx b j x hx)

end BucketLists

/-! ## Hash indices and bucket access -/

theorem land_pow2_range (x : Int) (n : Nat) :
    0 ≤ Int.land x (2 ^ n - 1) ∧ Int.land x (2 ^ n - 1) < 2 ^ n := by
  have hk : ((2 : Int) ^ n - 1) = (((2 ^ n - 1 : Nat)) : Int) := by
    have : 1 ≤ 2 ^ n := Nat.one_le_two_pow
    push_cast [Nat.cast_sub this]
    rfl
  rw [hk]
  cases x with
  | ofNat m =>
    show 0 ≤ ((Nat.land m (2 ^ n - 1) : Nat) : Int) ∧ ((Nat.land m (2 ^ n - 1) : Nat) : Int) < 2 ^ n
    have h1 : Nat.land m (2 ^ n - 1) = m % 2 ^ n := Nat.and_pow_two_sub_one_eq_mod m n
    rw [h1]
    constructor
    · exact Int.natCast_nonneg _
    · have : m % 2 ^ n < 2 ^ n := Nat.mod_lt _ (Nat.two_pow_pos n)
      exact_mod_cast this
  | negSucc m =>
    show 0 ≤ ((Nat.ldiff (2 ^ n - 1) m : Nat) : Int) ∧ ((Nat.ldiff (2 ^ n - 1) m : Nat) : Int) < 2 ^ n
    have h1 : Nat.ldiff (2 ^ n - 1) m < 2 ^ n := by
      apply Nat.lt_pow_two_of_testBit
      intro i hi
      rw [Nat.testBit_ldiff, Nat.testBit_two_pow_sub_one]
      simp
      intro h; omega
    constructor
    · exact Int.natCast_nonneg _
    · exact_mod_cast h1

section Access
variable {K V : Type}

theorem bucket_at_natCast (bs : List (hashmap_bucket K V)) (i : Nat) :
    bucket_at bs (i : Int) = bs.getD i [] := by
  simp [bucket_at]

theorem push_back_at_natCast (bs : List (hashmap_bucket K V)) (i : Nat) (kv : K × V) :
    push_back_at bs (i : Int) kv = bs.modify (fun b => b ++ [kv]) i := by
  simp [push_back_at]

theorem erase_at_natCast (bs : List (hashmap_bucket K V)) (i j : Nat) :
    erase_at bs (i : Int) (j : Int) = bs.modify (fun b => b.eraseIdx j) i := by
  simp [erase_at]

theorem length_push_back_at (bs : List (hashmap_bucket K V)) (i : Int) (kv : K × V) :
    (push_back_at bs i kv).length = bs.length := by
  unfold push_back_at; split <;> simp

end Access

namespace HashMap
section HashLemmas
variable {K : Type} (stdHash : K → Nat)

theorem hash_nonneg (key : K) (n : Nat) : 0 ≤ hash stdHash key (2 ^ n) :=
  (land_pow2_range _ n).1

theorem hash_lt (key : K) (n : Nat) : hash stdHash key (2 ^ n) < 2 ^ n :=
  (land_pow2_range _ n).2

/-- For a power-of-two capacity the hash index is a valid index of a bucket array of that length. -/
theorem hash_eq_natCast (key : K) {c : Int} (hc : ∃ n : Nat, c = 2 ^ n) :
    ∃ j : Nat, hash stdHash key c = (j : Int) ∧ (j : Int) < c := by
  obtain ⟨n, rfl⟩ := hc
  refine ⟨(hash stdHash key (2 ^ n)).toNat, ?_, ?_⟩
  · rw [Int.toNat_of_nonneg (hash_nonneg stdHash key n)]
  · rw [Int.toNat_of_nonneg (hash_nonneg stdHash key n)]
    exact hash_lt stdHash key n

end HashLemmas
end HashMap

namespace HashMap
section Traversal
variable {K V : Type}

theorem flatten_drop_of_getD_nil (bs : List (List (K × V))) (b : Nat)
    (h : bs.getD b [] = []) : (bs.drop b).flatten = (bs.drop (b + 1)).flatten := by
  by_cases hb : b < bs.length
  · rw [List.drop_eq_getElem_cons hb]
    have : bs[b] = [] := by
      simpa [List.getD_eq_getElem?_getD, List.getElem?_eq_getElem hb] using h
    simp [this]
  · rw [List.drop_eq_nil_of_le (by omega), List.drop_eq_nil_of_le (by omega)]

theorem flatten_drop_eq_getD_append (bs : List (List (K × V))) (b : Nat) :
    (bs.drop b).flatten = bs.getD b [] ++ (bs.drop (b + 1)).flatten := by
  by_cases hb : b < bs.length
  · have hg : bs.getD b [] = bs[b] := by
      simp [List.getD_eq_getElem?_getD, List.getElem?_eq_getElem hb]
    rw [List.drop_eq_getElem_cons hb, hg, List.flatten_cons]
  · rw [List.drop_eq_nil_of_le (by omega), List.drop_eq_nil_of_le (by omega),
      getD_nil_of_length_le bs (by omega)]
    simp

theorem skip_empty_spec (m : HashMap K V) (c : Nat) (hc : m._capacity = (c : Int))
    (fuel b : Nat) (hb : b ≤ c) (hf : c - b ≤ fuel) :
    ∃ b' : Nat, skip_empty m fuel (b : Int) = (b' : Int) ∧ b ≤ b' ∧ b' ≤ c ∧
      (m._buckets.drop b).flatten = (m._buckets.drop b').flatten ∧
      (b' < c → m._buckets.getD b' [] ≠ []) := by
  induction fuel generalizing b with
  | zero =>
    exact ⟨b, rfl, le_refl _, hb, rfl, fun h => by omega⟩
  | succ fuel ih =>
    unfold skip_empty
    rw [bucket_at_natCast, hc]
    by_cases hcond : ((m._buckets.getD b []).isEmpty && decide ((b : Int) < (c : Int))) = true
    · rw [if_pos hcond]
      simp only [Bool.and_eq_true, List.isEmpty_iff, decide_eq_true_eq, Nat.cast_lt] at hcond
      obtain ⟨b', h1, h2, h3, h4, h5⟩ := ih (b + 1) (by omega) (by omega)
      refine ⟨b', ?_, by omega, h3, ?_, h5⟩
      · rw [← h1]; norm_cast
      · rw [flatten_drop_of_getD_nil _ _ hcond.1, h4]
    · rw [if_neg hcond]
      refine ⟨b, rfl, le_refl _, hb, rfl, ?_⟩
      intro hlt hnil
      apply hcond
      rw [hnil]
      simp [hlt]

theorem begin_loop_spec (m : HashMap K V) (c : Nat) (hc : m._capacity = (c : Int))
    (fuel i : Nat) (hi : i ≤ c) (hf : c - i ≤ fuel) :
    ∃ b' : Nat, i ≤ b' ∧ b' ≤ c ∧
      (m._buckets.drop i).flatten = (m._buckets.drop b').flatten ∧
      (b' < c → m._buckets.getD b' [] ≠ []) ∧
      begin_loop m fuel (i : Int) =
        if b' < c then { _kv := some ((b' : Int), 0), _bucket := b', _index := 0 } else end_ m := by
  induction fuel generalizing i with
  | zero =>
    refine ⟨i, le_refl _, hi, rfl, fun h => by omega, ?_⟩
    have : ¬ i < c := by omega
    simp [begin_loop, this]
  | succ fuel ih =>
    unfold begin_loop
    rw [bucket_at_natCast, hc]
    by_cases hlt : i < c
    · have hlt' : (i : Int) < (c : Int) := by exact_mod_cast hlt
      rw [if_pos hlt']
      by_cases hemp : (m._buckets.getD i []).isEmpty = true
      · simp only [hemp, Bool.not_true, Bool.false_eq_true, if_false]
        obtain ⟨b', h1, h2, h3, h4, h5⟩ := ih (i + 1) (by omega) (by omega)
        refine ⟨b', by omega, h2, ?_, h4, ?_⟩
        · rw [flatten_drop_of_getD_nil _ _ (List.isEmpty_iff.1 hemp), h3]
        · rw [← h5]; norm_cast
      · simp only [hemp, Bool.not_false, if_true]
        refine ⟨i, le_refl _, hi, rfl, ?_, by simp [hlt]⟩
        intro _ hnil
        exact hemp (by rw [hnil]; rfl)
    · have hlt' : ¬ (i : Int) < (c : Int) := by exact_mod_cast hlt
      rw [if_neg hlt']
      refine ⟨i, le_refl _, hi, rfl, fun h => absurd h hlt, by simp [hlt]⟩

theorem traverse_loop_end (m : HashMap K V) (fuel : Nat) (b i : Int) :
    traverse_loop m fuel { _kv := none, _bucket := b, _index := i } = [] := by
  cases fuel with
  | zero => rfl
  | succ fuel => simp [traverse_loop, ConstIterator.eq, end_]

theorem traverse_loop_spec (m : HashMap K V) (c : Nat) (hc : m._capacity = (c : Int))
    (hlen : m._buckets.length = c) (fuel b i : Nat) (hb : b < c) (hi : i < (m._buckets.getD b []).length)
    (hf : ((m._buckets.getD b []).drop i).length + (m._buckets.drop (b + 1)).flatten.length
      < fuel) :
    traverse_loop m fuel { _kv := some ((b : Int), (i : Int)), _bucket := b, _index := i } =
      (m._buckets.getD b []).drop i ++ (m._buckets.drop (b + 1)).flatten := by
  induction fuel generalizing b i with
  | zero => omega
  | succ fuel ih =>
    have hx : ((m._buckets.getD b [])[i]?) = some ((m._buckets.getD b [])[i]) :=
      List.getElem?_eq_getElem hi
    have hdrop : (m._buckets.getD b []).drop i =
        (m._buckets.getD b [])[i] :: (m._buckets.getD b []).drop (i + 1) :=
      List.drop_eq_getElem_cons hi
    have hderef : ConstIterator.deref m
        { _kv := some ((b : Int), (i : Int)), _bucket := b, _index := i } =
        some ((m._buckets.getD b [])[i]) := by
      simp only [ConstIterator.deref, bucket_at_natCast]
      have : ¬ ((i : Int) < 0) := by omega
      simp [this, List.getElem?_eq_getElem hi]
    unfold traverse_loop
    have hne : ConstIterator.eq
        { _kv := some ((b : Int), (i : Int)), _bucket := b, _index := i } (end_ m) = false := by
      simp [ConstIterator.eq, end_]
    simp only [hne, Bool.false_eq_true, if_false, hderef]
    rw [hdrop, List.cons_append]
    congr 1
    rw [hdrop] at hf
    simp only [List.length_cons] at hf
    by_cases hnext : i + 1 < (m._buckets.getD b []).length
    · have hstep : ConstIterator.next m
          { _kv := some ((b : Int), (i : Int)), _bucket := b, _index := i } =
          { _kv := some ((b : Int), ((i + 1 : Nat) : Int)), _bucket := b,
            _index := ((i + 1 : Nat) : Int) } := by
        simp only [ConstIterator.next, bucket_at_natCast, hc]
        have h1 : ¬ ((i : Int) + 1 ≥ ((m._buckets.getD b []).length : Int)) := by omega
        have h2 : (b : Int) < (c : Int) := by omega
        simp [-List.getD_eq_getElem?_getD, h1, h2]
      rw [hstep]
      exact ih b (i + 1) hb hnext (by omega)
    · have hdn : (m._buckets.getD b []).drop (i + 1) = [] :=
        List.drop_eq_nil_of_le (by omega)
      obtain ⟨b', h1, h2, h3, h4, h5⟩ :=
        skip_empty_spec m c hc (c - (b + 1)) (b + 1) (by omega) (le_refl _)
      have hfuel : (m._capacity - ((b : Int) + 1)).toNat = c - (b + 1) := by omega
      have hcond : ((i : Int) + 1 ≥ ((m._buckets.getD b []).length : Int)) := by omega
      rw [hdn, List.nil_append, h4]
      by_cases hb' : b' < c
      · have hstep : ConstIterator.next m
            { _kv := some ((b : Int), (i : Int)), _bucket := b, _index := i } =
            { _kv := some ((b' : Int), ((0 : Nat) : Int)), _bucket := b',
              _index := ((0 : Nat) : Int) } := by
          simp only [ConstIterator.next, bucket_at_natCast, hfuel]
          have h1' : skip_empty m (c - (b + 1)) ((b : Int) + 1) = (b' : Int) := by
            rw [← h1]; norm_cast
          have h2' : (b' : Int) < m._capacity := by omega
          simp [-List.getD_eq_getElem?_getD, hcond, h1', h2']
        rw [hstep]
        have hpos : 0 < (m._buckets.getD b' []).length :=
          List.length_pos.2 (h5 hb')
        rw [ih b' 0 hb' hpos ?_]
        · rw [List.drop_zero, ← flatten_drop_eq_getD_append]
        · rw [List.drop_zero, ← List.length_append, ← flatten_drop_eq_getD_append, ← h4]
          omega
      · have hstep : ConstIterator.next m
            { _kv := some ((b : Int), (i : Int)), _bucket := b, _index := i } =
            { _kv := none, _bucket := b', _index := 0 } := by
          simp only [ConstIterator.next, bucket_at_natCast, hfuel]
          have h1' : skip_empty m (c - (b + 1)) ((b : Int) + 1) = (b' : Int) := by
            rw [← h1]; norm_cast
          have h2' : ¬ ((b' : Int) < m._capacity) := by omega
          simp [-List.getD_eq_getElem?_getD, hcond, h1', h2']
        rw [hstep, traverse_loop_end]
        rw [List.drop_eq_nil_of_le (by omega)]
        rfl

/-- The range-for loop over a container whose bucket array has `_capacity` buckets visits the
buckets in ascending index order, each bucket in its stored order. -/
theorem traverse_eq_flatten (m : HashMap K V)
    (hlen : (m._buckets.length : Int) = m._capacity) : traverse m = m._buckets.flatten := by
  have hc : m._capacity = ((m._buckets.length : Nat) : Int) := hlen.symm
  obtain ⟨b', _, h2, h3, h4, h5⟩ :=
    begin_loop_spec m m._buckets.length hc m._buckets.length 0 (Nat.zero_le _) (by omega)
  have hfuel : m._capacity.toNat = m._buckets.length := by omega
  unfold traverse begin
  rw [hfuel]
  have h5' : begin_loop m m._buckets.length 0 = _ := h5
  rw [h5']
  rw [List.drop_zero] at h3
  by_cases hb' : b' < m._buckets.length
  · rw [if_pos hb']
    have hpos : 0 < (m._buckets.getD b' []).length := List.length_pos.2 (h4 hb')
    have hlf : m._buckets.flatten.length = (m._buckets.map List.length).sum :=
      List.length_flatten _
    have := traverse_loop_spec m m._buckets.length hc rfl
      ((m._buckets.map List.length).sum + 1) b' 0 hb' hpos (by
        rw [List.drop_zero, ← List.length_append, ← flatten_drop_eq_getD_append, ← h3]
        omega)
    rw [List.drop_zero, ← flatten_drop_eq_getD_append, ← h3] at this
    exact this
  · rw [if_neg hb', h3, List.drop_eq_nil_of_le (by omega)]
    exact traverse_loop_end m _ _ _

end Traversal
end HashMap

namespace HashMap
section Lookup
variable {K V : Type} [DecidableEq K] (stdHash : K → Nat)

theorem bucket_at_nil_of_not_lt (bs : List (hashmap_bucket K V)) (i : Int)
    (h : ¬ (0 ≤ i ∧ i < (bs.length : Int))) : bucket_at bs i = [] := by
  unfold bucket_at
  split
  · rfl
  · exact getD_nil_of_length_le bs (by omega)

/-- In a well-formed container a pair is stored iff it is in the bucket of its key. -/
theorem mem_flatten_iff_mem_bucket {m : HashMap K V} (hwf : WellFormed stdHash m) (p : K × V) :
    p ∈ m._buckets.flatten ↔ p ∈ bucket_at m._buckets (hash stdHash p.1 m._capacity) := by
  rw [mem_flatten_iff_getD]
  constructor
  · rintro ⟨i, _, hp⟩
    rw [hwf.placement i p hp, bucket_at_natCast]
    exact hp
  · intro hp
    obtain ⟨j, hj, hjc⟩ := hash_eq_natCast stdHash p.1 hwf.capacity_pow2.2
    rw [hj, bucket_at_natCast] at hp
    have := hwf.buckets_length
    exact ⟨j, by omega, hp⟩

theorem contains_key_iff_exists_mem_bucket (m : HashMap K V) (key : K) :
    contains_key stdHash m key = true ↔
      ∃ v, (key, v) ∈ bucket_at m._buckets (hash stdHash key m._capacity) := by
  unfold contains_key
  rw [List.any_eq_true]
  constructor
  · rintro ⟨⟨k, v⟩, hp, hk⟩
    simp only [decide_eq_true_eq] at hk
    subst hk
    exact ⟨v, hp⟩
  · rintro ⟨v, hp⟩
    exact ⟨(key, v), hp, by simp⟩

/-- In a well-formed container `contains_key` decides whether the key is stored. -/
theorem contains_key_iff {m : HashMap K V} (hwf : WellFormed stdHash m) (key : K) :
    contains_key stdHash m key = true ↔ ∃ v, (key, v) ∈ m._buckets.flatten := by
  rw [contains_key_iff_exists_mem_bucket]
  constructor
  · rintro ⟨v, hp⟩
    exact ⟨v, (mem_flatten_iff_mem_bucket stdHash hwf (key, v)).2 hp⟩
  · rintro ⟨v, hp⟩
    exact ⟨v, (mem_flatten_iff_mem_bucket stdHash hwf (key, v)).1 hp⟩

theorem contains_key_iff_mem_keys {m : HashMap K V} (hwf : WellFormed stdHash m) (key : K) :
    contains_key stdHash m key = true ↔ key ∈ m._buckets.flatten.map Prod.fst := by
  rw [contains_key_iff stdHash hwf, List.mem_map]
  constructor
  · rintro ⟨v, hp⟩
    exact ⟨(key, v), hp, rfl⟩
  · rintro ⟨⟨k, v⟩, hp, rfl⟩
    exact ⟨v, hp⟩

/-- Two stored pairs with the same key are the same pair. -/
theorem value_unique {l : List (K × V)} (hnd : (l.map Prod.fst).Nodup) {k : K} {v w : V}
    (hv : (k, v) ∈ l) (hw : (k, w) ∈ l) : v = w := by
  induction l with
  | nil => simp at hv
  | cons a t ih =>
    simp only [List.map_cons, List.nodup_cons, List.mem_map, not_exists, not_and] at hnd
    rcases List.mem_cons.1 hv with hv | hv <;> rcases List.mem_cons.1 hw with hw | hw
    · rw [← hw] at hv
      exact (Prod.mk.inj hv).2
    · exact absurd (by rw [← hv]) (hnd.1 (k, w) hw)
    · exact absurd (by rw [← hw]) (hnd.1 (k, v) hv)
    · exact ih hnd.2 hv hw

/-- The strict accessor throws exactly when `contains_key` is false (in every state). -/
theorem at_eq_error_iff (m : HashMap K V) (key : K) (e : Exception) :
    «at» stdHash m key = .error e ↔
      contains_key stdHash m key = false ∧ e = Exception.out_of_range := by
  unfold «at» contains_key
  cases hf : (bucket_at m._buckets (hash stdHash key m._capacity)).find?
      (fun i => decide (i.1 = key)) with
  | none =>
    rw [List.find?_eq_none] at hf
    simp only [Except.error.injEq]
    constructor
    · intro h
      refine ⟨?_, h.symm⟩
      rw [Bool.eq_false_iff]
      intro hany
      obtain ⟨p, hp, hk⟩ := List.any_eq_true.1 hany
      exact hf p hp hk
    · rintro ⟨_, h⟩
      exact h.symm
  | some p =>
    have hmem := List.mem_of_find?_eq_some hf
    have hk := List.find?_some hf
    constructor
    · intro h
      cases h
    · rintro ⟨h, _⟩
      rw [Bool.eq_false_iff] at h
      exact absurd (List.any_eq_true.2 ⟨p, hmem, hk⟩) h

/-- In a well-formed container `at` returns `v` exactly when the pair `(key, v)` is stored. -/
theorem at_eq_ok_iff {m : HashMap K V} (hwf : WellFormed stdHash m) (key : K) (v : V) :
    «at» stdHash m key = .ok v ↔ (key, v) ∈ m._buckets.flatten := by
  unfold «at»
  cases hf : (bucket_at m._buckets (hash stdHash key m._capacity)).find?
      (fun i => decide (i.1 = key)) with
  | none =>
    rw [List.find?_eq_none] at hf
    constructor
    · intro h
      cases h
    · intro hp
      have := (mem_flatten_iff_mem_bucket stdHash hwf (key, v)).1 hp
      exact absurd (by simp) (hf (key, v) this)
  | some p =>
    have hmem := List.mem_of_find?_eq_some hf
    have hk : p.1 = key := by simpa using List.find?_some hf
    have hp : (key, p.2) ∈ m._buckets.flatten := by
      have h1 : p ∈ bucket_at m._buckets (hash stdHash p.1 m._capacity) := by
        rw [hk]; exact hmem
      have h2 := (mem_flatten_iff_mem_bucket stdHash hwf p).2 h1
      rw [← hk]
      exact h2
    simp only [Except.ok.injEq]
    constructor
    · intro h
      rw [← h]
      exact hp
    · intro hv
      exact value_unique hwf.unique_keys hp hv

end Lookup
end HashMap

namespace HashMap
section Rehash
variable {K V : Type} [DecidableEq K] (stdHash : K → Nat)

theorem getD_replicate_nil (n i : Nat) :
    (List.replicate n ([] : hashmap_bucket K V)).getD i [] = [] := by
  by_cases h : i < n
  · simp [List.getD_eq_getElem?_getD, List.getElem?_replicate, h]
  · exact getD_nil_of_length_le _ (by simp; omega)

theorem flatten_replicate_nil (n : Nat) :
    (List.replicate n ([] : hashmap_bucket K V)).flatten = [] := by
  induction n with
  | zero => rfl
  | succ n ih => simp [List.replicate_succ, ih]

/-- The loop body of `re_hash` run over a list of pairs: every pair is appended to the bucket of
its key under the new capacity. -/
theorem distribute_spec (c : Int) (hc : ∃ n : Nat, c = 2 ^ n) (l : List (K × V))
    (bs : List (hashmap_bucket K V)) (hlen : (bs.length : Int) = c) :
    (l.foldl (fun nb kv => push_back_at nb (hash stdHash kv.1 c) kv) bs).length = bs.length ∧
    (l.foldl (fun nb kv => push_back_at nb (hash stdHash kv.1 c) kv) bs).flatten.Perm
      (bs.flatten ++ l) ∧
    ∀ (i : Nat) (p : K × V),
      p ∈ (l.foldl (fun nb kv => push_back_at nb (hash stdHash kv.1 c) kv) bs).getD i [] →
      p ∈ bs.getD i [] ∨ (p ∈ l ∧ hash stdHash p.1 c = (i : Int)) := by
  induction l generalizing bs with
  | nil => simp
  | cons kv l ih =>
    obtain ⟨j, hj, hjc⟩ := hash_eq_natCast stdHash kv.1 hc
    have hjlen : j < bs.length := by omega
    have hlen' : ((push_back_at bs (hash stdHash kv.1 c) kv).length : Int) = c := by
      rw [length_push_back_at]; exact hlen
    obtain ⟨h1, h2, h3⟩ := ih (push_back_at bs (hash stdHash kv.1 c) kv) hlen'
    simp only [List.foldl_cons]
    refine ⟨?_, ?_, ?_⟩
    · rw [h1, length_push_back_at]
    · refine h2.trans ?_
      rw [hj, push_back_at_natCast]
      refine (List.Perm.append_right l (flatten_modify_push_perm bs j kv hjlen)).trans ?_
      simp only [List.cons_append]
      exact List.perm_middle.symm
    · intro i p hp
      rcases h3 i p hp with hp' | ⟨hp', hh⟩
      · rw [hj, push_back_at_natCast] at hp'
        by_cases hij : j = i
        · subst hij
          rw [getD_modify_eq _ _ _ hjlen] at hp'
          rcases List.mem_append.1 hp' with hp'' | hp''
          · exact Or.inl hp''
          · right
            have : p = kv := by simpa using hp''
            subst this
            exact ⟨List.mem_cons_self _ _, hj⟩
        · rw [getD_modify_ne _ _ hij] at hp'
          exact Or.inl hp'
      · exact Or.inr ⟨List.mem_cons_of_mem _ hp', hh⟩

theorem sum_length_eq_of_perm {a b : List (hashmap_bucket K V)}
    (h : a.flatten.Perm b.flatten) : (a.map List.length).sum = (b.map List.length).sum := by
  rw [← List.length_flatten, ← List.length_flatten]
  exact h.length_eq

/-- `re_hash` to a power-of-two capacity keeps the container well-formed, keeps `_size` and
stores the same pairs. -/
theorem re_hash_spec {m : HashMap K V} (hwf : WellFormed stdHash m) (c : Int)
    (hc : ∃ n : Nat, c = 2 ^ n) :
    WellFormed stdHash (re_hash stdHash m c) ∧ (re_hash stdHash m c)._capacity = c ∧
      (re_hash stdHash m c)._size = m._size ∧
      (re_hash stdHash m c)._buckets.flatten.Perm m._buckets.flatten := by
  unfold re_hash
  by_cases heq : c = m._capacity
  · rw [if_pos heq]
    exact ⟨hwf, heq.symm, rfl, List.Perm.refl _⟩
  · rw [if_neg heq]
    have hc1 : 1 ≤ c := by
      obtain ⟨n, rfl⟩ := hc
      exact one_le_pow₀ (by norm_num)
    have hnew : (((new_buckets c : List (hashmap_bucket K V)).length : Nat) : Int) = c := by
      simp only [new_buckets, List.length_replicate]
      omega
    obtain ⟨h1, h2, h3⟩ := distribute_spec stdHash c hc (traverse m) (new_buckets c) hnew
    rw [traverse_eq_flatten m hwf.buckets_length] at h1 h2 h3 ⊢
    have hperm : ((m._buckets.flatten).foldl
        (fun nb kv => push_back_at nb (hash stdHash kv.1 c) kv)
        (new_buckets c)).flatten.Perm m._buckets.flatten := by
      refine h2.trans ?_
      simp [new_buckets, flatten_replicate_nil]
    refine ⟨⟨?_, ⟨hc1, hc⟩, ?_, ?_, ?_⟩, rfl, rfl, hperm⟩
    · show ((List.length _ : Nat) : Int) = c
      rw [h1]; exact hnew
    · show m._size = _
      rw [hwf.size_eq]
      congr 1
      exact (sum_length_eq_of_perm hperm).symm
    · intro i p hp
      rcases h3 i p hp with hp' | ⟨_, hh⟩
      · simp only [new_buckets] at hp'
        rw [getD_replicate_nil] at hp'
        simp at hp'
      · exact hh
    · exact (hperm.map Prod.fst).nodup_iff.2 hwf.unique_keys

end Rehash
end HashMap

namespace HashMap
section Insert
variable {K V : Type} [DecidableEq K] (stdHash : K → Nat)

/-- The container between the `push_back` and the load-factor test of `insert`. -/
theorem insert_push_back_spec {m : HashMap K V} (hwf : WellFormed stdHash m) (key : K)
    (value : V) (habs : contains_key stdHash m key = false) :
    WellFormed stdHash
      { m with _buckets := push_back_at m._buckets (hash stdHash key m._capacity) (key, value),
               _size := m._size + 1 } ∧
    (push_back_at m._buckets (hash stdHash key m._capacity) (key, value)).flatten.Perm
      ((key, value) :: m._buckets.flatten) := by
  obtain ⟨j, hj, hjc⟩ := hash_eq_natCast stdHash key hwf.capacity_pow2.2
  have hlen := hwf.buckets_length
  have hjlen : j < m._buckets.length := by omega
  have hperm : (push_back_at m._buckets (hash stdHash key m._capacity) (key, value)).flatten.Perm
      ((key, value) :: m._buckets.flatten) := by
    rw [hj, push_back_at_natCast]
    exact flatten_modify_push_perm _ _ _ hjlen
  refine ⟨⟨?_, hwf.capacity_pow2, ?_, ?_, ?_⟩, hperm⟩
  · show ((List.length _ : Nat) : Int) = m._capacity
    rw [length_push_back_at]; exact hlen
  · show m._size + 1 = _
    rw [← List.length_flatten, hperm.length_eq, List.length_cons, List.length_flatten,
      hwf.size_eq]
    push_cast
    rfl
  · intro i p hp
    show hash stdHash p.1 m._capacity = (i : Int)
    have hp' : p ∈ (push_back_at m._buckets (hash stdHash key m._capacity) (key, value)).getD i [] :=
      hp
    rw [hj, push_back_at_natCast] at hp'
    by_cases hij : j = i
    · subst hij
      rw [getD_modify_eq _ _ _ hjlen] at hp'
      rcases List.mem_append.1 hp' with hp'' | hp''
      · exact hwf.placement j p hp''
      · have : p = (key, value) := by simpa using hp''
        subst this
        exact hj
    · rw [getD_modify_ne _ _ hij] at hp'
      exact hwf.placement i p hp'
  · show ((push_back_at m._buckets (hash stdHash key m._capacity) (key, value)).flatten.map
      Prod.fst).Nodup
    rw [(hperm.map Prod.fst).nodup_iff, List.map_cons, List.nodup_cons]
    refine ⟨?_, hwf.unique_keys⟩
    intro hmem
    have := (contains_key_iff_mem_keys stdHash hwf key).2 hmem
    rw [habs] at this
    cases this

/-- `insert` of an absent key into a well-formed container. -/
theorem insert_absent_spec {m : HashMap K V} (hwf : WellFormed stdHash m) (key : K)
    (value : V) (habs : contains_key stdHash m key = false) :
    (insert stdHash m key value).1 = true ∧
    WellFormed stdHash (insert stdHash m key value).2 ∧
    (insert stdHash m key value).2._size = m._size + 1 ∧
    (insert stdHash m key value).2._buckets.flatten.Perm ((key, value) :: m._buckets.flatten) ∧
    (insert stdHash m key value).2._capacity =
      if 3 * m._capacity ≤ 4 * (m._size + 1) then 2 * m._capacity else m._capacity := by
  obtain ⟨hwf1, hperm⟩ := insert_push_back_spec stdHash hwf key value habs
  have hpos : 0 < m._capacity := by have := hwf.capacity_pow2.1; omega
  unfold insert
  simp only [habs, Bool.false_eq_true, if_false]
  unfold load_ge_MAX_LOAD
  simp only [hpos, if_true]
  by_cases hload : 3 * m._capacity ≤ 4 * (m._size + 1)
  · simp only [hload, decide_True, if_true]
    have hc2 : ∃ n : Nat, m._capacity * 2 = 2 ^ n := by
      obtain ⟨n, hn⟩ := hwf.capacity_pow2.2
      exact ⟨n + 1, by rw [hn, pow_succ]⟩
    obtain ⟨h1, h2, h3, h4⟩ := re_hash_spec stdHash hwf1 (m._capacity * 2) hc2
    refine ⟨trivial, h1, h3, h4.trans hperm, ?_⟩
    rw [h2]; ring
  · simp only [hload, decide_False, Bool.false_eq_true, if_false]
    exact ⟨trivial, hwf1, trivial, hperm, trivial⟩

/-- `insert` of a present key changes nothing (in every state). -/
theorem insert_present_spec (m : HashMap K V) (key : K) (value : V)
    (hpres : contains_key stdHash m key = true) :
    insert stdHash m key value = (false, m) := by
  unfold insert
  simp [hpres]

end Insert
end HashMap

namespace HashMap
section Erase
variable {K V : Type} [DecidableEq K] (stdHash : K → Nat)

theorem erase_scan_no_match (key : K) (b : hashmap_bucket K V) (s : Int) (acc : Option Int)
    (h : ∀ p ∈ b, key ≠ p.1) : erase_scan key b s acc = acc := by
  induction b generalizing s acc with
  | nil => rfl
  | cons kv rest ih =>
    unfold erase_scan
    rw [if_neg (h kv (List.mem_cons_self _ _))]
    exact ih (s + 1) acc (fun p hp => h p (List.mem_cons_of_mem _ hp))

/-- When the bucket holds a pair with the key, the scan loop of `erase` assigns `index`, and
the assigned slot is within the bucket and holds a pair with that key. -/
theorem erase_scan_match (key : K) (b : hashmap_bucket K V) (s : Int) (acc : Option Int)
    (h : ∃ p ∈ b, p.1 = key) :
    ∃ (j : Nat) (v : V), erase_scan key b s acc = some (s + (j : Int)) ∧ b[j]? = some (key, v) := by
  induction b generalizing s acc with
  | nil =>
    obtain ⟨p, hp, _⟩ := h
    cases hp
  | cons kv rest ih =>
    unfold erase_scan
    by_cases hrest : ∃ p ∈ rest, p.1 = key
    · obtain ⟨j, v, h1, h2⟩ := ih (s + 1) (if key = kv.1 then some s else acc) hrest
      refine ⟨j + 1, v, ?_, ?_⟩
      · rw [h1]; push_cast; congr 1; ring
      · simpa using h2
    · have hno : ∀ p ∈ rest, key ≠ p.1 := by
        intro p hp hk
        exact hrest ⟨p, hp, hk.symm⟩
      have hhead : kv.1 = key := by
        obtain ⟨p, hp, hk⟩ := h
        rcases List.mem_cons.1 hp with rfl | hp
        · exact hk
        · exact absurd hk.symm (hno p hp)
      rw [erase_scan_no_match key rest _ _ hno, if_pos hhead.symm]
      refine ⟨0, kv.2, by simp, ?_⟩
      simp [← hhead]

/-- The shrink loop of `erase` started at a power-of-two capacity with a non-negative size
finishes within `n + 2` tests of its condition. -/
theorem shrink_loop_spec (s : Int) (hs : 0 ≤ s) (n fuel : Nat) (hf : n + 2 ≤ fuel) :
    ∃ r : Int, shrink_loop s fuel (2 ^ n) = some r ∧
      ((s = 0 ∧ r = 0) ∨
       (0 < s ∧ ∃ j : Nat, j ≤ n ∧ r = 2 ^ (n - j) ∧ (2 : Int) ^ (n - j) ≤ 4 * s ∧
          ∀ i : Nat, i < j → 4 * s < (2 : Int) ^ (n - i))) := by
  induction n generalizing fuel with
  | zero =>
    obtain ⟨f, rfl⟩ : ∃ f, fuel = f + 1 := ⟨fuel - 1, by omega⟩
    obtain ⟨g, rfl⟩ : ∃ g, f = g + 1 := ⟨f - 1, by omega⟩
    by_cases h0 : s = 0
    · subst h0
      refine ⟨0, ?_, Or.inl ⟨rfl, rfl⟩⟩
      have h12 : (1 : Int).tdiv 2 = 0 := by decide
      simp [shrink_loop, load_lt_MIN_LOAD, h12]
    · have hpos : 0 < s := by omega
      refine ⟨1, ?_, Or.inr ⟨hpos, 0, le_refl _, by simp, by simp; omega, by simp⟩⟩
      have : ¬ (4 * s < 1) := by omega
      simp [shrink_loop, load_lt_MIN_LOAD, this]
  | succ n ih =>
    obtain ⟨f, rfl⟩ : ∃ f, fuel = f + 1 := ⟨fuel - 1, by omega⟩
    have hpow : (0 : Int) < 2 ^ (n + 1) := by positivity
    have htdiv : ((2 : Int) ^ (n + 1)).tdiv 2 = 2 ^ n := by
      rw [pow_succ, Int.mul_tdiv_cancel _ (by norm_num)]
    by_cases hlt : 4 * s < 2 ^ (n + 1)
    · obtain ⟨r, h1, h2⟩ := ih f (by omega)
      refine ⟨r, ?_, ?_⟩
      · unfold shrink_loop load_lt_MIN_LOAD
        simp only [hpow, if_true, hlt, decide_True, htdiv]
        exact h1
      · rcases h2 with h2 | ⟨hs', j, hj, hr, hle, hall⟩
        · exact Or.inl h2
        · refine Or.inr ⟨hs', j + 1, by omega, ?_, ?_, ?_⟩
          · rw [hr]; congr 1; omega
          · have : n + 1 - (j + 1) = n - j := by omega
            rw [this]; exact hle
          · intro i hi
            cases i with
            | zero => exact hlt
            | succ i =>
              have : n + 1 - (i + 1) = n - i := by omega
              rw [this]
              exact hall i (by omega)
    · have hpos : 0 < s := by
        by_contra hneg
        have : s = 0 := by omega
        subst this
        exact hlt (by simp)
      refine ⟨2 ^ (n + 1), ?_, Or.inr ⟨hpos, 0, by omega, by simp, by simpa using not_lt.1 hlt,
        by simp⟩⟩
      unfold shrink_loop load_lt_MIN_LOAD
      simp only [hpow, if_true, hlt, decide_False, Bool.false_eq_true, if_false]

end Erase
end HashMap

namespace HashMap
section EraseSpec
variable {K V : Type} [DecidableEq K] (stdHash : K → Nat)

theorem length_erase_at (bs : List (hashmap_bucket K V)) (i index : Int) :
    (erase_at bs i index).length = bs.length := by
  unfold erase_at; split <;> simp

/-- The container between the removal of the pair and the shrink loop of `erase`. -/
theorem erase_remove_spec {m : HashMap K V} (hwf : WellFormed stdHash m) (key : K)
    (hpres : contains_key stdHash m key = true) :
    ∃ (index : Nat) (v : V),
      erase_scan key (bucket_at m._buckets (hash stdHash key m._capacity)) 0 none =
        some (index : Int) ∧
      (bucket_at m._buckets (hash stdHash key m._capacity))[index]? = some (key, v) ∧
      WellFormed stdHash
        { m with _buckets := erase_at m._buckets (hash stdHash key m._capacity) (index : Int),
                 _size := m._size - 1 } ∧
      m._buckets.flatten.Perm
        ((key, v) :: (erase_at m._buckets (hash stdHash key m._capacity) (index : Int)).flatten) := by
  obtain ⟨v0, hv0⟩ := (contains_key_iff_exists_mem_bucket stdHash m key).1 hpres
  obtain ⟨index, v, hscan, hget⟩ :=
    erase_scan_match key (bucket_at m._buckets (hash stdHash key m._capacity)) 0 none
      ⟨(key, v0), hv0, rfl⟩
  rw [zero_add] at hscan
  refine ⟨index, v, hscan, hget, ?_⟩
  obtain ⟨j, hj, hjc⟩ := hash_eq_natCast stdHash key hwf.capacity_pow2.2
  have hlen := hwf.buckets_length
  have hjlen : j < m._buckets.length := by omega
  rw [hj, bucket_at_natCast] at hget
  have hperm : m._buckets.flatten.Perm
      ((key, v) :: (erase_at m._buckets (hash stdHash key m._capacity) (index : Int)).flatten) := by
    rw [hj, erase_at_natCast]
    exact flatten_modify_eraseIdx_perm _ _ _ _ hjlen hget
  refine ⟨⟨?_, hwf.capacity_pow2, ?_, ?_, ?_⟩, hperm⟩
  · show ((List.length _ : Nat) : Int) = m._capacity
    rw [length_erase_at]; exact hlen
  · show m._size - 1 = _
    have h1 := hperm.length_eq
    rw [List.length_cons, List.length_flatten, List.length_flatten] at h1
    rw [hwf.size_eq, h1]
    push_cast
    ring
  · intro i p hp
    show hash stdHash p.1 m._capacity = (i : Int)
    have hp' : p ∈ (erase_at m._buckets (hash stdHash key m._capacity) (index : Int)).getD i [] :=
      hp
    rw [hj, erase_at_natCast] at hp'
    by_cases hij : j = i
    · subst hij
      rw [getD_modify_eq _ _ _ hjlen] at hp'
      exact hwf.placement j p (List.mem_of_mem_eraseIdx hp')
    · rw [getD_modify_ne _ _ hij] at hp'
      exact hwf.placement i p hp'
  · show ((erase_at m._buckets (hash stdHash key m._capacity) (index : Int)).flatten.map
      Prod.fst).Nodup
    have := (hperm.map Prod.fst).nodup_iff.1 hwf.unique_keys
    rw [List.map_cons, List.nodup_cons] at this
    exact this.2

/-- `erase` of a present key from a well-formed container of capacity `2 ^ n`, given fuel for
`n + 2` tests of the shrink condition. -/
theorem erase_present_spec {m : HashMap K V} (hwf : WellFormed stdHash m) (key : K)
    (hpres : contains_key stdHash m key = true) (n fuel : Nat) (hn : m._capacity = 2 ^ n)
    (hf : n + 2 ≤ fuel) :
    ∃ (m' : HashMap K V) (v : V),
      erase stdHash fuel m key = some (true, m') ∧ WellFormed stdHash m' ∧
      m'._size = m._size - 1 ∧ 0 ≤ m'._size ∧
      m._buckets.flatten.Perm ((key, v) :: m'._buckets.flatten) ∧
      ((m'._size = 0 ∧ m'._capacity = 1) ∨
       (0 < m'._size ∧ ∃ j : Nat, j ≤ n ∧ m'._capacity = 2 ^ (n - j) ∧
          (2 : Int) ^ (n - j) ≤ 4 * m'._size ∧
          ∀ i : Nat, i < j → 4 * m'._size < (2 : Int) ^ (n - i))) := by
  obtain ⟨index, v, hscan, _, hwf1, hperm⟩ := erase_remove_spec stdHash hwf key hpres
  have hsize : (0 : Int) ≤ m._size - 1 := by
    have h1 := hperm.length_eq
    rw [List.length_cons, List.length_flatten] at h1
    rw [hwf.size_eq, h1]
    push_cast
    omega
  obtain ⟨r, hr, hcase⟩ := shrink_loop_spec (m._size - 1) hsize n fuel hf
  have hcap : ∃ k : Nat, max r 1 = 2 ^ k := by
    rcases hcase with ⟨_, h0⟩ | ⟨_, j, _, hj, _⟩
    · exact ⟨0, by rw [h0]; rfl⟩
    · refine ⟨n - j, ?_⟩
      rw [hj]
      exact max_eq_left (one_le_pow₀ (by norm_num))
  obtain ⟨h1, h2, h3, h4⟩ := re_hash_spec stdHash hwf1 (max r 1) hcap
  refine ⟨_, v, ?_, h1, h3, ?_, hperm.trans (List.Perm.cons _ h4.symm), ?_⟩
  · unfold erase
    rw [← hn] at hr
    simp only [hpres, Bool.not_true, Bool.false_eq_true, if_false, hscan, hr]
  · rw [h3]; exact hsize
  · rw [h2, h3]
    rcases hcase with ⟨hs0, h0⟩ | ⟨hs, j, hjn, hj, hle, hall⟩
    · exact Or.inl ⟨hs0, by rw [h0]; rfl⟩
    · refine Or.inr ⟨hs, j, hjn, ?_, hle, hall⟩
      rw [hj]
      exact max_eq_left (one_le_pow₀ (by norm_num))

/-- `erase` of an absent key changes nothing (in every state, with any fuel). -/
theorem erase_absent_spec (m : HashMap K V) (key : K) (fuel : Nat)
    (habs : contains_key stdHash m key = false) :
    erase stdHash fuel m key = some (false, m) := by
  unfold erase
  simp [habs]

end EraseSpec
end HashMap

namespace HashMap
section Frame
variable {K V : Type} [DecidableEq K] (stdHash : K → Nat)

/-- Two well-formed containers that store the same pairs under a key answer `contains_key` and
`at` for that key alike. -/
theorem lookup_congr {m m' : HashMap K V} (hwf : WellFormed stdHash m)
    (hwf' : WellFormed stdHash m') (key : K)
    (h : ∀ v, (key, v) ∈ m'._buckets.flatten ↔ (key, v) ∈ m._buckets.flatten) :
    contains_key stdHash m' key = contains_key stdHash m key ∧
      «at» stdHash m' key = «at» stdHash m key := by
  have hc : contains_key stdHash m' key = contains_key stdHash m key := by
    rw [Bool.eq_iff_iff, contains_key_iff stdHash hwf, contains_key_iff stdHash hwf']
    exact exists_congr h
  refine ⟨hc, ?_⟩
  cases h1 : «at» stdHash m key with
  | ok v =>
    rw [at_eq_ok_iff stdHash hwf] at h1
    exact (at_eq_ok_iff stdHash hwf' key v).2 ((h v).2 h1)
  | error e =>
    obtain ⟨h2, rfl⟩ := (at_eq_error_iff stdHash m key e).1 h1
    exact (at_eq_error_iff stdHash m' key _).2 ⟨hc.trans h2, rfl⟩

theorem contains_key_eq_false_iff {m : HashMap K V} (hwf : WellFormed stdHash m) (key : K) :
    contains_key stdHash m key = false ↔ ∀ v, (key, v) ∉ m._buckets.flatten := by
  rw [← Bool.not_eq_true, contains_key_iff stdHash hwf]
  exact not_exists

/-- The default-constructed container is well-formed. -/
theorem default_wellFormed : WellFormed stdHash (HashMap.default : HashMap K V) := by
  refine ⟨?_, ⟨?_, 4, ?_⟩, ?_, ?_, ?_⟩
  · simp [HashMap.default, new_buckets, DEF_CAP]
  · simp [HashMap.default, DEF_CAP]
  · simp [HashMap.default, DEF_CAP]
  · show (0 : Int) = _
    simp [HashMap.default, new_buckets]
  · intro i p hp
    simp only [HashMap.default, new_buckets] at hp
    rw [getD_replicate_nil] at hp
    cases hp
  · simp [HashMap.default, new_buckets, flatten_replicate_nil]

theorem default_flatten : (HashMap.default : HashMap K V)._buckets.flatten = [] := by
  simp [HashMap.default, new_buckets, flatten_replicate_nil]

/-- `clear` keeps the container well-formed and stores nothing. -/
theorem clear_spec {m : HashMap K V} (hwf : WellFormed stdHash m) :
    WellFormed stdHash (clear m) ∧ (clear m)._buckets.flatten = [] := by
  have hfl : (clear m)._buckets.flatten = [] := by
    simp [clear, new_buckets, flatten_replicate_nil]
  refine ⟨⟨?_, hwf.capacity_pow2, ?_, ?_, ?_⟩, hfl⟩
  · show (((new_buckets m._capacity : List (hashmap_bucket K V)).length : Nat) : Int) = m._capacity
    have := hwf.capacity_pow2.1
    simp only [new_buckets, List.length_replicate]
    omega
  · show (0 : Int) = _
    rw [← List.length_flatten, hfl]
    rfl
  · intro i p hp
    have hp' : p ∈ (new_buckets m._capacity : List (hashmap_bucket K V)).getD i [] := hp
    simp only [new_buckets] at hp'
    rw [getD_replicate_nil] at hp'
    cases hp'
  · rw [hfl]
    exact List.nodup_nil

/-- `insert` keeps the container well-formed, whether or not the key is present. -/
theorem insert_wellFormed {m : HashMap K V} (hwf : WellFormed stdHash m) (key : K) (value : V) :
    WellFormed stdHash (insert stdHash m key value).2 := by
  cases hc : contains_key stdHash m key with
  | true => rw [insert_present_spec stdHash m key value hc]; exact hwf
  | false => exact (insert_absent_spec stdHash hwf key value hc).2.1

theorem pow_two_exponent_lt {m : HashMap K V} {n fuel : Nat} (hn : m._capacity = 2 ^ n)
    (hfuel : m._capacity < (fuel : Int)) : n + 2 ≤ fuel := by
  have h1 : n < 2 ^ n := Nat.lt_two_pow n
  have h2 : ((2 ^ n : Nat) : Int) < (fuel : Int) := by
    push_cast
    rw [← hn]
    exact hfuel
  have h3 : 2 ^ n < fuel := by exact_mod_cast h2
  omega

/-- With more fuel than the capacity, `erase` on a well-formed container returns, and the
container it leaves is well-formed. -/
theorem erase_wellFormed {m : HashMap K V} (hwf : WellFormed stdHash m) (key : K) (fuel : Nat)
    (hfuel : m._capacity < (fuel : Int)) :
    ∃ r, erase stdHash fuel m key = some r ∧ WellFormed stdHash r.2 := by
  cases hc : contains_key stdHash m key with
  | false => exact ⟨(false, m), erase_absent_spec stdHash m key fuel hc, hwf⟩
  | true =>
    obtain ⟨n, hn⟩ := hwf.capacity_pow2.2
    obtain ⟨m', _, h1, h2, _⟩ :=
      erase_present_spec stdHash hwf key hc n fuel hn (pow_two_exponent_lt hn hfuel)
    exact ⟨(true, m'), h1, h2⟩

/-- The mutable `operator[]` keeps the container well-formed. -/
theorem operator_index_wellFormed [Inhabited V] {m : HashMap K V}
    (hwf : WellFormed stdHash m) (key : K) :
    WellFormed stdHash (operator_index stdHash m key).1 := by
  unfold operator_index
  cases hc : contains_key stdHash m key with
  | true => simpa using hwf
  | false => simpa using insert_wellFormed stdHash hwf key _

end Frame
end HashMap

section Sequences
variable {K V : Type} [DecidableEq K] (stdHash : K → Nat)

open HashMap

theorem insert_all_cons (m : HashMap K V) (kv : K × V) (kvs : List (K × V)) :
    insert_all stdHash m (kv :: kvs) =
      insert_all stdHash (HashMap.insert stdHash m kv.1 kv.2).2 kvs := rfl

/-- Inserting pairs with pairwise distinct keys, all absent from a well-formed container. -/
theorem insert_all_spec (kvs : List (K × V)) {m : HashMap K V} (hwf : WellFormed stdHash m)
    (hnd : (kvs.map Prod.fst).Nodup)
    (habs : ∀ kv ∈ kvs, contains_key stdHash m kv.1 = false) :
    WellFormed stdHash (insert_all stdHash m kvs) ∧
    (insert_all stdHash m kvs)._buckets.flatten.Perm (kvs ++ m._buckets.flatten) ∧
    ((insert_all stdHash m kvs)._size, (insert_all stdHash m kvs)._capacity) =
      grow_step^[kvs.length] (m._size, m._capacity) := by
  induction kvs generalizing m with
  | nil => exact ⟨hwf, List.Perm.refl _, rfl⟩
  | cons kv rest ih =>
    rw [List.map_cons, List.nodup_cons] at hnd
    obtain ⟨_, h2, h3, h4, h5⟩ :=
      insert_absent_spec stdHash hwf kv.1 kv.2 (habs kv (List.mem_cons_self _ _))
    have habs' : ∀ kv' ∈ rest,
        contains_key stdHash (HashMap.insert stdHash m kv.1 kv.2).2 kv'.1 = false := by
      intro kv' hkv'
      rw [contains_key_eq_false_iff stdHash h2]
      intro v hv
      rcases List.mem_cons.1 (h4.subset hv) with heq | hmem
      · apply hnd.1
        rw [← (Prod.mk.inj heq).1]
        exact List.mem_map_of_mem _ hkv'
      · have := (contains_key_eq_false_iff stdHash hwf kv'.1).1
          (habs kv' (List.mem_cons_of_mem _ hkv')) v
        exact this hmem
    obtain ⟨i1, i2, i3⟩ := ih h2 hnd.2 habs'
    rw [insert_all_cons]
    refine ⟨i1, ?_, ?_⟩
    · refine i2.trans ?_
      refine (List.Perm.append_left rest h4).trans ?_
      simp only [List.cons_append]
      exact List.perm_middle
    · rw [i3, List.length_cons, Function.iterate_succ_apply]
      congr 1
      have hpos : 0 < m._capacity := by have := hwf.capacity_pow2.1; omega
      simp only [grow_step, load_ge_MAX_LOAD, hpos, if_true, h3, h5]
      by_cases hload : 3 * m._capacity ≤ 4 * (m._size + 1)
      · simp [hload, mul_comm]
      · simp [hload]

theorem shrink_loop_mono (s : Int) (fuel fuel' : Nat) (c r : Int) (hle : fuel ≤ fuel')
    (h : shrink_loop s fuel c = some r) : shrink_loop s fuel' c = some r := by
  induction fuel generalizing fuel' c with
  | zero => cases h
  | succ fuel ih =>
    obtain ⟨g, rfl⟩ : ∃ g, fuel' = g + 1 := ⟨fuel' - 1, by omega⟩
    unfold shrink_loop at h ⊢
    split
    · rename_i hc
      rw [if_pos hc] at h
      exact ih g _ (by omega) h
    · rename_i hc
      rw [if_neg hc] at h
      exact h

/-- More fuel does not change a result of `erase`. -/
theorem erase_mono (m : HashMap K V) (key : K) (fuel fuel' : Nat) (r : Bool × HashMap K V)
    (hle : fuel ≤ fuel') (h : erase stdHash fuel m key = some r) :
    erase stdHash fuel' m key = some r := by
  unfold erase at h ⊢
  split
  · rename_i hc
    rw [if_pos hc] at h
    exact h
  · rename_i hc
    rw [if_neg hc] at h
    dsimp only at h ⊢
    cases hscan : erase_scan key (bucket_at m._buckets (hash stdHash key m._capacity)) 0 none with
    | none => rw [hscan] at h; cases h
    | some index =>
      rw [hscan] at h
      dsimp only at h ⊢
      cases hs : shrink_loop (m._size - 1) fuel m._capacity with
      | none => rw [hs] at h; cases h
      | some n =>
        rw [hs] at h
        rw [shrink_loop_mono _ fuel fuel' _ _ hle hs]
        exact h

/-- Every reachable container is well-formed and has load factor below `MAX_LOAD`. -/
theorem reachable_invariant {m : HashMap K V} (hr : Reachable stdHash m) :
    WellFormed stdHash m ∧ 4 * m._size < 3 * m._capacity ∧ 0 ≤ m._size := by
  induction hr with
  | default =>
    refine ⟨default_wellFormed stdHash, ?_, ?_⟩ <;> simp [HashMap.default, DEF_CAP]
  | @insert m key value _ ih =>
    obtain ⟨hwf, hload, hs⟩ := ih
    cases hc : contains_key stdHash m key with
    | true => rw [insert_present_spec stdHash m key value hc]; exact ⟨hwf, hload, hs⟩
    | false =>
      obtain ⟨_, h2, h3, _, h5⟩ := insert_absent_spec stdHash hwf key value hc
      have := hwf.capacity_pow2.1
      refine ⟨h2, ?_, ?_⟩
      · rw [h3, h5]
        rcases (show m._capacity = 1 ∨ 2 ≤ m._capacity by omega) with h1 | h1 <;>
          split <;> omega
      · rw [h3]; omega
  | @erase m fuel key r _ he ih =>
    obtain ⟨hwf, hload, hs⟩ := ih
    cases hc : contains_key stdHash m key with
    | false =>
      rw [erase_absent_spec stdHash m key fuel hc] at he
      cases he
      exact ⟨hwf, hload, hs⟩
    | true =>
      obtain ⟨n, hn⟩ := hwf.capacity_pow2.2
      obtain ⟨m', _, h1, h2, h3, h4, _, h6⟩ :=
        erase_present_spec stdHash hwf key hc n (max fuel (n + 2)) hn (le_max_right _ _)
      rw [erase_mono stdHash m key fuel _ r (le_max_left _ _) he] at h1
      cases h1
      refine ⟨h2, ?_, h4⟩
      rcases h6 with ⟨h0, hc1⟩ | ⟨_, j, hj, hcap, _, hall⟩
      · show 4 * m'._size < 3 * m'._capacity
        rw [h0, hc1]; norm_num
      · show 4 * m'._size < 3 * m'._capacity
        cases j with
        | zero =>
          rw [hcap, Nat.sub_zero, ← hn, h3]
          omega
        | succ j =>
          have := hall j (by omega)
          have hpw : (2 : Int) ^ (n - j) = 2 * 2 ^ (n - (j + 1)) := by
            rw [← pow_succ']
            congr 1
            omega
          rw [hcap]
          have hpos : (0 : Int) < 2 ^ (n - (j + 1)) := by positivity
          omega

end Sequences

namespace HashMap
section Equality
variable {K V : Type} [DecidableEq K] [DecidableEq V] (stdHash : K → Nat)

theorem pair_differs_eq_false_iff {other : HashMap K V} (hwf : WellFormed stdHash other)
    (kv : K × V) : pair_differs stdHash other kv = false ↔ kv ∈ other._buckets.flatten := by
  have hmem : kv ∈ other._buckets.flatten ↔ «at» stdHash other kv.1 = .ok kv.2 :=
    (at_eq_ok_iff stdHash hwf kv.1 kv.2).symm
  rw [hmem]
  unfold pair_differs
  cases hc : contains_key stdHash other kv.1 with
  | false =>
    simp only [Bool.not_false, if_true]
    constructor
    · intro h; cases h
    · intro h
      have := (at_eq_error_iff stdHash other kv.1 Exception.out_of_range).2 ⟨hc, rfl⟩
      rw [this] at h
      cases h
  | true =>
    simp only [Bool.not_true, Bool.false_eq_true, if_false]
    cases hat : «at» stdHash other kv.1 with
    | ok v => simp
    | error e => simp

theorem size_eq_length_flatten {m : HashMap K V} (hwf : WellFormed stdHash m) :
    m._size = ((m._buckets.flatten.length : Nat) : Int) := by
  rw [List.length_flatten]
  exact hwf.size_eq

/-- On well-formed containers `operator==` holds exactly when both store the same pairs, up to
their order. -/
theorem operator_eq_iff_perm {m other : HashMap K V} (hwf : WellFormed stdHash m)
    (hwf' : WellFormed stdHash other) :
    operator_eq stdHash m other = true ↔ m._buckets.flatten.Perm other._buckets.flatten := by
  unfold operator_eq
  rw [traverse_eq_flatten m hwf.buckets_length]
  constructor
  · intro h
    by_cases hs : m._size = other._size
    · simp only [hs, ne_eq, not_true_eq_false, if_false, List.all_eq_true,
        Bool.not_eq_true', pair_differs_eq_false_iff stdHash hwf'] at h
      have hnd : m._buckets.flatten.Nodup := List.Nodup.of_map _ hwf.unique_keys
      refine (List.subperm_of_subset hnd h).perm_of_length_le ?_
      rw [size_eq_length_flatten stdHash hwf, size_eq_length_flatten stdHash hwf'] at hs
      have : m._buckets.flatten.length = other._buckets.flatten.length := by exact_mod_cast hs
      omega
    · simp [hs] at h
  · intro hp
    have hs : m._size = other._size := by
      rw [size_eq_length_flatten stdHash hwf, size_eq_length_flatten stdHash hwf', hp.length_eq]
    simp only [hs, ne_eq, not_true_eq_false, if_false, List.all_eq_true,
      Bool.not_eq_true', pair_differs_eq_false_iff stdHash hwf']
    exact fun kv hkv => hp.subset hkv

/-- Two well-formed containers store the same pairs (up to order) exactly when `contains_key`
agrees on every key and `at` agrees on every contained key. -/
theorem perm_iff_lookup_eq {m other : HashMap K V} (hwf : WellFormed stdHash m)
    (hwf' : WellFormed stdHash other) :
    m._buckets.flatten.Perm other._buckets.flatten ↔
      ∀ k, contains_key stdHash m k = contains_key stdHash other k ∧
        (contains_key stdHash m k = true → «at» stdHash m k = «at» stdHash other k) := by
  constructor
  · intro hp k
    have := lookup_congr stdHash hwf' hwf k (fun v => hp.mem_iff)
    exact ⟨this.1, fun _ => this.2⟩
  · intro h
    have hnd : m._buckets.flatten.Nodup := List.Nodup.of_map _ hwf.unique_keys
    have hnd' : other._buckets.flatten.Nodup := List.Nodup.of_map _ hwf'.unique_keys
    rw [List.perm_ext_iff_of_nodup hnd hnd']
    rintro ⟨k, v⟩
    obtain ⟨h1, h2⟩ := h k
    constructor
    · intro hm
      have hc : contains_key stdHash m k = true := (contains_key_iff stdHash hwf k).2 ⟨v, hm⟩
      rw [← at_eq_ok_iff stdHash hwf', ← h2 hc]
      exact (at_eq_ok_iff stdHash hwf k v).2 hm
    · intro hm
      have hc : contains_key stdHash m k = true := by
        rw [h1]; exact (contains_key_iff stdHash hwf' k).2 ⟨v, hm⟩
      rw [← at_eq_ok_iff stdHash hwf, h2 hc]
      exact (at_eq_ok_iff stdHash hwf' k v).2 hm

end Equality
end HashMap

section Claims
variable {K V : Type} [DecidableEq K] (stdHash : K → Nat)

open HashMap

theorem grow_step_iterate_fst (n : Nat) (sc : Int × Int) :
    (grow_step^[n] sc).1 = sc.1 + (n : Int) := by
  induction n generalizing sc with
  | zero => simp
  | succ n ih =>
    rw [Function.iterate_succ_apply, ih]
    simp only [grow_step]
    push_cast
    ring

/-- `insert` of an absent key into a well-formed container: the lookups afterwards. -/
theorem insert_absent_lookup {m : HashMap K V} (hwf : WellFormed stdHash m) (k : K) (v : V)
    (habs : contains_key stdHash m k = false) :
    contains_key stdHash (insert stdHash m k v).2 k = true ∧
    «at» stdHash (insert stdHash m k v).2 k = .ok v ∧
    ∀ k', k' ≠ k →
      contains_key stdHash (insert stdHash m k v).2 k' = contains_key stdHash m k' ∧
      «at» stdHash (insert stdHash m k v).2 k' = «at» stdHash m k' := by
  obtain ⟨_, h2, _, h4, _⟩ := insert_absent_spec stdHash hwf k v habs
  have hmem : (k, v) ∈ (insert stdHash m k v).2._buckets.flatten :=
    h4.symm.subset (List.mem_cons_self _ _)
  refine ⟨(contains_key_iff stdHash h2 k).2 ⟨v, hmem⟩, (at_eq_ok_iff stdHash h2 k v).2 hmem, ?_⟩
  intro k' hk'
  refine lookup_congr stdHash hwf h2 k' (fun w => ?_)
  rw [h4.mem_iff, List.mem_cons]
  constructor
  · rintro (heq | hm)
    · exact absurd (Prod.mk.inj heq).1 hk'
    · exact hm
  · exact Or.inr

/-- `erase` of a present key from a well-formed container: the lookups afterwards. -/
theorem erase_present_lookup {m m' : HashMap K V} (hwf : WellFormed stdHash m)
    (hwf' : WellFormed stdHash m') (k : K) (v : V)
    (hperm : m._buckets.flatten.Perm ((k, v) :: m'._buckets.flatten)) :
    contains_key stdHash m' k = false ∧
    «at» stdHash m' k = .error Exception.out_of_range ∧
    ∀ k', k' ≠ k →
      contains_key stdHash m' k' = contains_key stdHash m k' ∧
      «at» stdHash m' k' = «at» stdHash m k' := by
  have hnd := (hperm.map Prod.fst).nodup_iff.1 hwf.unique_keys
  rw [List.map_cons, List.nodup_cons] at hnd
  have hc : contains_key stdHash m' k = false := by
    rw [← Bool.not_eq_true, contains_key_iff_mem_keys stdHash hwf']
    exact hnd.1
  refine ⟨hc, (at_eq_error_iff stdHash m' k _).2 ⟨hc, rfl⟩, ?_⟩
  intro k' hk'
  refine lookup_congr stdHash hwf hwf' k' (fun w => ?_)
  rw [hperm.mem_iff, List.mem_cons]
  constructor
  · exact Or.inr
  · rintro (heq | hm)
    · exact absurd (Prod.mk.inj heq).1 hk'
    · exact hm

end Claims

section ClaimTheorems
variable {K V : Type} [DecidableEq K] (stdHash : K → Nat)

open HashMap

theorem example_map_wellFormed : WellFormed natHash example_map :=
  insert_wellFormed natHash (default_wellFormed natHash) 3 30

theorem example_dict_wellFormed : WellFormed strHash example_dict :=
  insert_wellFormed strHash (default_wellFormed strHash) "x" "1"

/-- C1: well-formedness is an invariant.  The default-constructed container is well-formed, and
from a well-formed container each of `insert`, `erase` (which returns, given more fuel than the
capacity), the mutable `operator[]` and `clear` leaves a well-formed container.  Well-formed
means: the bucket array has `_capacity` buckets, (1) the capacity is at least 1 and a power of
two, (2) `_size` is the total number of pairs in the buckets, (3) every stored pair lies in the
bucket with index `hash (key, _capacity)`, (4) no two stored pairs have equal keys. -/
theorem wellFormed_invariant [Inhabited V] (m : HashMap K V) (hwf : WellFormed stdHash m)
    (key : K) (value : V) (fuel : Nat) (hfuel : m._capacity < (fuel : Int)) :
    WellFormed stdHash (HashMap.default : HashMap K V) ∧
    WellFormed stdHash (insert stdHash m key value).2 ∧
    (∃ r, erase stdHash fuel m key = some r ∧ WellFormed stdHash r.2) ∧
    WellFormed stdHash (operator_index stdHash m key).1 ∧
    WellFormed stdHash (clear m) :=
  ⟨default_wellFormed stdHash, insert_wellFormed stdHash hwf key value,
    erase_wellFormed stdHash hwf key fuel hfuel, operator_index_wellFormed stdHash hwf key,
    (clear_spec stdHash hwf).1⟩

theorem wellFormed_invariant_witness :
    WellFormed natHash example_map ∧ example_map._capacity < ((17 : Nat) : Int) ∧
    WellFormed natHash (insert natHash example_map 7 70).2 ∧
    (∃ r, erase natHash 17 example_map 3 = some r ∧ WellFormed natHash r.2) ∧
    WellFormed natHash (clear example_map) :=
  have h := wellFormed_invariant natHash example_map example_map_wellFormed 3 30 17 (by decide)
  ⟨example_map_wellFormed, by decide,
    (wellFormed_invariant natHash example_map example_map_wellFormed 7 70 17 (by decide)).2.1,
    h.2.2.1, h.2.2.2.2⟩

/-- C2: for a well-formed container and an absent key, `insert` returns true, `size ()` grows by
exactly one, the key is contained afterwards and `at` returns the inserted value, and for every
other key `contains_key` and `at` answer as before (also when the insert re-hashes).
Consequently, inserting pairs with pairwise distinct keys into the default-constructed container
gives `size ()` equal to the number of pairs, and every inserted key is contained. -/
theorem insert_absent_correct (m : HashMap K V) (hwf : WellFormed stdHash m) (k : K) (v : V)
    (habs : contains_key stdHash m k = false) :
    (insert stdHash m k v).1 = true ∧
    size (insert stdHash m k v).2 = size m + 1 ∧
    contains_key stdHash (insert stdHash m k v).2 k = true ∧
    «at» stdHash (insert stdHash m k v).2 k = .ok v ∧
    (∀ k', k' ≠ k →
      contains_key stdHash (insert stdHash m k v).2 k' = contains_key stdHash m k' ∧
      «at» stdHash (insert stdHash m k v).2 k' = «at» stdHash m k') ∧
    (∀ kvs : List (K × V), (kvs.map Prod.fst).Nodup →
      size (insert_all stdHash (HashMap.default : HashMap K V) kvs) = (kvs.length : Int) ∧
      ∀ kv ∈ kvs,
        contains_key stdHash (insert_all stdHash (HashMap.default : HashMap K V) kvs) kv.1 =
          true) := by
  obtain ⟨h1, _, h3, _, _⟩ := insert_absent_spec stdHash hwf k v habs
  obtain ⟨l1, l2, l3⟩ := insert_absent_lookup stdHash hwf k v habs
  refine ⟨h1, h3, l1, l2, l3, ?_⟩
  intro kvs hnd
  have hdef : ∀ kv ∈ kvs, contains_key stdHash (HashMap.default : HashMap K V) kv.1 = false := by
    intro kv _
    rw [contains_key_eq_false_iff stdHash (default_wellFormed stdHash), default_flatten]
    intro w hw
    cases hw
  obtain ⟨a1, a2, a3⟩ := insert_all_spec stdHash kvs (default_wellFormed stdHash) hnd hdef
  constructor
  · have := congrArg Prod.fst a3
    simp only [grow_step_iterate_fst] at this
    show (insert_all stdHash (HashMap.default : HashMap K V) kvs)._size = _
    rw [this]
    simp [HashMap.default]
  · intro kv hkv
    rw [contains_key_iff stdHash a1]
    exact ⟨kv.2, a2.symm.subset (List.mem_append_left _ hkv)⟩

theorem insert_absent_correct_witness :
    WellFormed natHash example_map ∧ contains_key natHash example_map 19 = false ∧
    (insert natHash example_map 19 5).1 = true ∧
    size (insert natHash example_map 19 5).2 = size example_map + 1 ∧
    «at» natHash (insert natHash example_map 19 5).2 19 = .ok 5 :=
  have h := insert_absent_correct natHash example_map example_map_wellFormed 19 5 (by decide)
  ⟨example_map_wellFormed, by decide, h.1, h.2.1, h.2.2.2.1⟩

/-- C3: `insert` of a key that is contained returns false and leaves the container unchanged:
`size ()`, `capacity ()`, every bucket and the value `at (k)` are as before.  (This holds in
every state of the container, well-formed or not.) -/
theorem insert_present_unchanged (m : HashMap K V) (k : K) (v : V)
    (hpres : contains_key stdHash m k = true) :
    (insert stdHash m k v).1 = false ∧
    size (insert stdHash m k v).2 = size m ∧
    capacity (insert stdHash m k v).2 = capacity m ∧
    (insert stdHash m k v).2._buckets = m._buckets ∧
    «at» stdHash (insert stdHash m k v).2 k = «at» stdHash m k ∧
    (insert stdHash m k v).2 = m := by
  rw [insert_present_spec stdHash m k v hpres]
  exact ⟨rfl, rfl, rfl, rfl, rfl, rfl⟩

theorem insert_present_unchanged_witness :
    contains_key natHash example_map 3 = true ∧
    (insert natHash example_map 3 99).1 = false ∧
    «at» natHash (insert natHash example_map 3 99).2 3 = «at» natHash example_map 3 ∧
    (insert natHash example_map 3 99).2 = example_map :=
  have h := insert_present_unchanged natHash example_map 3 99 (by decide)
  ⟨by decide, h.1, h.2.2.2.2.1, h.2.2.2.2.2⟩

/-- C4: for a well-formed container and a contained key, `erase` (given more fuel than the
capacity) returns true, `size ()` decreases by exactly one, the key is no longer contained and
`at` on it throws `out_of_range`, and for every other key `contains_key` and `at` answer as
before, whatever shrink and re-hash the erase performs. -/
theorem erase_present_correct (m : HashMap K V) (hwf : WellFormed stdHash m) (k : K)
    (hpres : contains_key stdHash m k = true) (fuel : Nat)
    (hfuel : m._capacity < (fuel : Int)) :
    ∃ m' : HashMap K V, erase stdHash fuel m k = some (true, m') ∧
      size m' = size m - 1 ∧
      contains_key stdHash m' k = false ∧
      «at» stdHash m' k = .error Exception.out_of_range ∧
      ∀ k', k' ≠ k →
        contains_key stdHash m' k' = contains_key stdHash m k' ∧
        «at» stdHash m' k' = «at» stdHash m k' := by
  obtain ⟨n, hn⟩ := hwf.capacity_pow2.2
  obtain ⟨m', v, h1, h2, h3, _, h5, _⟩ :=
    erase_present_spec stdHash hwf k hpres n fuel hn (pow_two_exponent_lt hn hfuel)
  obtain ⟨l1, l2, l3⟩ := erase_present_lookup stdHash hwf h2 k v h5
  exact ⟨m', h1, h3, l1, l2, l3⟩

theorem erase_present_correct_witness :
    WellFormed natHash example_map ∧ contains_key natHash example_map 3 = true ∧
    example_map._capacity < ((17 : Nat) : Int) ∧
    ∃ m' : HashMap Nat Nat, erase natHash 17 example_map 3 = some (true, m') ∧
      size m' = size example_map - 1 ∧ contains_key natHash m' 3 = false :=
  have ⟨m', h1, h2, h3, _⟩ :=
    erase_present_correct natHash example_map example_map_wellFormed 3 (by decide) 17 (by decide)
  ⟨example_map_wellFormed, by decide, by decide, m', h1, h2, h3⟩

/-- C5: for a key that is not contained, the base `HashMap::erase` returns false and leaves size,
capacity and all buckets unchanged, and `Dictionary::erase` throws `InvalidKey` and leaves size,
capacity and all buckets unchanged.  Conversely, on a well-formed `Dictionary` (given more fuel
than the capacity) `Dictionary::erase` throws `InvalidKey` only if the key is absent, and
returns true otherwise. -/
theorem erase_absent_correct (m : HashMap K V) (k : K) (fuel : Nat)
    (habs : contains_key stdHash m k = false)
    (stringHash : String → Nat) (d : Dictionary) (hwf : WellFormed stringHash d) (s : String)
    (hfuel : d._capacity < (fuel : Int)) :
    erase stdHash fuel m k = some (false, m) ∧
    (contains_key stringHash d s = false →
      Dictionary.erase stringHash fuel d s = some (.error Exception.InvalidKey, d)) ∧
    ((∃ e d', Dictionary.erase stringHash fuel d s = some (.error e, d')) →
      contains_key stringHash d s = false) ∧
    (contains_key stringHash d s = true →
      ∃ d', Dictionary.erase stringHash fuel d s = some (.ok true, d')) := by
  have hpres : contains_key stringHash d s = true →
      ∃ d', Dictionary.erase stringHash fuel d s = some (.ok true, d') := by
    intro hc
    obtain ⟨n, hn⟩ := hwf.capacity_pow2.2
    obtain ⟨d', _, h1, _⟩ :=
      erase_present_spec stringHash hwf s hc n fuel hn (pow_two_exponent_lt hn hfuel)
    exact ⟨d', by simp [Dictionary.erase, h1]⟩
  refine ⟨erase_absent_spec stdHash m k fuel habs, ?_, ?_, hpres⟩
  · intro hc
    simp [Dictionary.erase, erase_absent_spec stringHash d s fuel hc]
  · rintro ⟨e, d', he⟩
    cases hc : contains_key stringHash d s with
    | false => rfl
    | true =>
      obtain ⟨d'', hd⟩ := hpres hc
      rw [hd] at he
      cases he

theorem erase_absent_correct_witness :
    contains_key natHash example_map 8 = false ∧ WellFormed strHash example_dict ∧
    example_dict._capacity < ((17 : Nat) : Int) ∧
    erase natHash 17 example_map 8 = some (false, example_map) ∧
    Dictionary.erase strHash 17 example_dict "y" =
      some (.error Exception.InvalidKey, example_dict) ∧
    ∃ d', Dictionary.erase strHash 17 example_dict "x" = some (.ok true, d') :=
  have h := erase_absent_correct natHash example_map 8 17 (by decide) strHash example_dict
    example_dict_wellFormed "y" (by decide)
  have h' := erase_absent_correct natHash example_map 8 17 (by decide) strHash example_dict
    example_dict_wellFormed "x" (by decide)
  ⟨by decide, example_dict_wellFormed, by decide, h.1, h.2.1 (by decide), h'.2.2.2 (by decide)⟩

end ClaimTheorems

section ClaimTheorems2
variable {K V : Type} [DecidableEq K] (stdHash : K → Nat)

open HashMap

theorem two_pow_ediv_two_pow (n j : Nat) (hj : j ≤ n) :
    ((2 : Int) ^ n) / 2 ^ j = 2 ^ (n - j) := by
  have h : (2 : Int) ^ n = 2 ^ (n - j) * 2 ^ j := (pow_sub_mul_pow 2 hj).symm
  rw [h, Int.mul_ediv_cancel _ (pow_ne_zero _ (by norm_num))]

/-- C6: on a well-formed container each strict accessor `at`, `bucket_size`, `bucket_index`
throws `out_of_range` exactly when `contains_key` is false.  When the key is contained, `at`
returns the value stored with the key, `bucket_index` returns `hash (key, _capacity)`, which lies
in `[0, _capacity)`, and `bucket_size` returns the length of that bucket, which is at least 1. -/
theorem strict_accessors_correct (m : HashMap K V) (hwf : WellFormed stdHash m) (k : K) :
    («at» stdHash m k = .error Exception.out_of_range ↔ contains_key stdHash m k = false) ∧
    (bucket_size stdHash m k = .error Exception.out_of_range ↔
      contains_key stdHash m k = false) ∧
    (bucket_index stdHash m k = .error Exception.out_of_range ↔
      contains_key stdHash m k = false) ∧
    (contains_key stdHash m k = true →
      (∃ v, «at» stdHash m k = .ok v ∧ (k, v) ∈ m._buckets.flatten ∧
        ∀ w, (k, w) ∈ m._buckets.flatten → w = v) ∧
      bucket_index stdHash m k = .ok (hash stdHash k m._capacity) ∧
      0 ≤ hash stdHash k m._capacity ∧ hash stdHash k m._capacity < capacity m ∧
      bucket_size stdHash m k =
        .ok ((bucket_at m._buckets (hash stdHash k m._capacity)).length : Int) ∧
      1 ≤ (bucket_at m._buckets (hash stdHash k m._capacity)).length) := by
  refine ⟨?_, ?_, ?_, ?_⟩
  · rw [at_eq_error_iff]
    exact ⟨fun h => h.1, fun h => ⟨h, rfl⟩⟩
  · unfold bucket_size
    cases hc : contains_key stdHash m k <;> simp
  · unfold bucket_index
    cases hc : contains_key stdHash m k <;> simp
  · intro hc
    obtain ⟨v, hv⟩ := (contains_key_iff stdHash hwf k).1 hc
    obtain ⟨j, hj, hjc⟩ := hash_eq_natCast stdHash k hwf.capacity_pow2.2
    refine ⟨⟨v, (at_eq_ok_iff stdHash hwf k v).2 hv, hv,
      fun w hw => value_unique hwf.unique_keys hw hv⟩, ?_, ?_, ?_, ?_, ?_⟩
    · simp [bucket_index, hc]
    · rw [hj]; exact Int.natCast_nonneg _
    · rw [hj]; exact hjc
    · simp [bucket_size, hc]
    · have := (mem_flatten_iff_mem_bucket stdHash hwf (k, v)).1 hv
      exact List.length_pos_of_mem this

theorem strict_accessors_correct_witness :
    WellFormed natHash example_map ∧
    «at» natHash example_map 4 = .error Exception.out_of_range ∧
    bucket_index natHash example_map 3 = .ok (hash natHash 3 example_map._capacity) ∧
    1 ≤ (bucket_at example_map._buckets (hash natHash 3 example_map._capacity)).length :=
  have h4 := strict_accessors_correct natHash example_map example_map_wellFormed 4
  have h3 := strict_accessors_correct natHash example_map example_map_wellFormed 3
  ⟨example_map_wellFormed, h4.1.2 (by decide), (h3.2.2.2 (by decide)).2.1,
    (h3.2.2.2 (by decide)).2.2.2.2.2⟩

/-- C7: growth rule.  After `insert` of an absent key into a well-formed container with size `s`
and capacity `c`, the capacity is `2 * c` if `(s + 1) / c >= 0.75`, that is `4 * (s + 1) >= 3 * c`,
and `c` otherwise.  The default-constructed container has capacity 16, and after inserting any
13 pairs with pairwise distinct keys, whatever the hash function, the capacity is 32. -/
theorem insert_growth_rule (m : HashMap K V) (hwf : WellFormed stdHash m) (k : K) (v : V)
    (habs : contains_key stdHash m k = false) :
    capacity (insert stdHash m k v).2 =
      (if 4 * (size m + 1) ≥ 3 * capacity m then 2 * capacity m else capacity m) ∧
    capacity (HashMap.default : HashMap K V) = 16 ∧
    ∀ kvs : List (K × V), kvs.length = 13 → (kvs.map Prod.fst).Nodup →
      capacity (insert_all stdHash (HashMap.default : HashMap K V) kvs) = 32 := by
  refine ⟨(insert_absent_spec stdHash hwf k v habs).2.2.2.2, rfl, ?_⟩
  intro kvs hlen hnd
  have hdef : ∀ kv ∈ kvs, contains_key stdHash (HashMap.default : HashMap K V) kv.1 = false := by
    intro kv _
    rw [contains_key_eq_false_iff stdHash (default_wellFormed stdHash), default_flatten]
    intro w hw
    cases hw
  obtain ⟨_, _, a3⟩ := insert_all_spec stdHash kvs (default_wellFormed stdHash) hnd hdef
  rw [hlen] at a3
  have h13 : grow_step^[13] ((0 : Int), (16 : Int)) = (13, 32) := by decide
  have h13' : grow_step^[13] ((HashMap.default : HashMap K V)._size,
      (HashMap.default : HashMap K V)._capacity) = (13, 32) := h13
  rw [h13'] at a3
  exact congrArg Prod.snd a3

theorem insert_growth_rule_witness :
    WellFormed natHash example_map ∧ contains_key natHash example_map 19 = false ∧
    capacity (insert natHash example_map 19 5).2 = 16 ∧
    capacity (insert_all natHash (HashMap.default : HashMap Nat Nat)
      ((List.range 13).map (fun n => (n, n)))) = 32 :=
  have h := insert_growth_rule natHash example_map example_map_wellFormed 19 5 (by decide)
  ⟨example_map_wellFormed, by decide, h.1.trans (by decide), h.2.2 _ (by decide) (by decide)⟩

/-- C8: shrink rule.  For a well-formed container of capacity `c = 2 ^ n` and a contained key,
`erase` finishes within `n + 2` tests of the shrink condition and returns true.  With `s'` the
size afterwards: if `s' > 0` the new capacity is `c / 2 ^ j` for the least `j` with
`s' / (c / 2 ^ j) >= 0.25`; if `s' = 0` the new capacity is 1.  In every case the new capacity
is at least 1, is a power of two, and the load factor is at least 0.25 or the capacity is 1. -/
theorem erase_shrink_rule (m : HashMap K V) (hwf : WellFormed stdHash m) (k : K)
    (hpres : contains_key stdHash m k = true) (n fuel : Nat) (hn : capacity m = 2 ^ n)
    (hf : n + 2 ≤ fuel) :
    ∃ m' : HashMap K V, erase stdHash fuel m k = some (true, m') ∧
      size m' = size m - 1 ∧
      (0 < size m' → ∃ j : Nat, capacity m' = capacity m / 2 ^ j ∧ 0 < capacity m / 2 ^ j ∧
        capacity m / 2 ^ j ≤ 4 * size m' ∧
        ∀ i : Nat, i < j → 0 < capacity m / 2 ^ i ∧ 4 * size m' < capacity m / 2 ^ i) ∧
      (size m' = 0 → capacity m' = 1) ∧
      1 ≤ capacity m' ∧ (∃ e : Nat, capacity m' = 2 ^ e) ∧
      (capacity m' ≤ 4 * size m' ∨ capacity m' = 1) := by
  obtain ⟨m', _, h1, h2, h3, _, _, h6⟩ := erase_present_spec stdHash hwf k hpres n fuel hn hf
  refine ⟨m', h1, h3, ?_, ?_, h2.capacity_pow2.1, h2.capacity_pow2.2, ?_⟩
  · intro hpos
    rcases h6 with ⟨h0, _⟩ | ⟨_, j, hj, hcap, hle, hall⟩
    · exact absurd h0 (by show m'._size ≠ 0; exact ne_of_gt hpos)
    · refine ⟨j, ?_, ?_, ?_, ?_⟩
      · rw [hn, two_pow_ediv_two_pow n j hj]; exact hcap
      · rw [hn, two_pow_ediv_two_pow n j hj]; positivity
      · rw [hn, two_pow_ediv_two_pow n j hj]; exact hle
      · intro i hi
        rw [hn, two_pow_ediv_two_pow n i (by omega)]
        exact ⟨by positivity, hall i hi⟩
  · intro h0
    rcases h6 with ⟨_, hc⟩ | ⟨hpos, _⟩
    · exact hc
    · exact absurd h0 (ne_of_gt hpos)
  · rcases h6 with ⟨_, hc⟩ | ⟨_, j, _, hcap, hle, _⟩
    · exact Or.inr hc
    · left
      show m'._capacity ≤ 4 * m'._size
      rw [hcap]; exact hle

end ClaimTheorems2

section ClaimTheorems3
variable {K V : Type} [DecidableEq K] (stdHash : K → Nat)

open HashMap

theorem example_map2_wellFormed : WellFormed natHash example_map2 :=
  insert_wellFormed natHash example_map_wellFormed 5 50

theorem example_map_small_wellFormed : WellFormed natHash example_map_small :=
  (re_hash_spec natHash example_map_wellFormed 4 ⟨2, by norm_num⟩).1

theorem erase_shrink_rule_witness :
    WellFormed natHash example_map2 ∧ contains_key natHash example_map2 3 = true ∧
    capacity example_map2 = 2 ^ 4 ∧ 4 + 2 ≤ 6 ∧
    ∃ m' : HashMap Nat Nat, erase natHash 6 example_map2 3 = some (true, m') ∧
      size m' = size example_map2 - 1 ∧ 1 ≤ capacity m' ∧
      (capacity m' ≤ 4 * size m' ∨ capacity m' = 1) :=
  have ⟨m', h1, h2, _, _, h5, _, h7⟩ :=
    erase_shrink_rule natHash example_map2 example_map2_wellFormed 3 (by decide) 4 6
      (by decide) (by decide)
  ⟨example_map2_wellFormed, by decide, by decide, by decide, m', h1, h2, h5, h7⟩

/-- C9, the claim as stated fails: after the successful `insert (0, 0)` into the
default-constructed container the size is 1 and the capacity is 16, so the load factor is
below 0.25 although the capacity is not 1. -/
theorem load_factor_after_insert_counterexample :
    Reachable natHash (HashMap.default : HashMap Nat Nat) ∧
    (insert natHash (HashMap.default : HashMap Nat Nat) 0 0).1 = true ∧
    size (insert natHash (HashMap.default : HashMap Nat Nat) 0 0).2 = 1 ∧
    capacity (insert natHash (HashMap.default : HashMap Nat Nat) 0 0).2 = 16 ∧
    ¬ ((capacity (insert natHash (HashMap.default : HashMap Nat Nat) 0 0).2 ≤
          4 * size (insert natHash (HashMap.default : HashMap Nat Nat) 0 0).2 ∧
        4 * size (insert natHash (HashMap.default : HashMap Nat Nat) 0 0).2 <
          3 * capacity (insert natHash (HashMap.default : HashMap Nat Nat) 0 0).2) ∨
      capacity (insert natHash (HashMap.default : HashMap Nat Nat) 0 0).2 = 1) :=
  ⟨Reachable.default, by decide, by decide, by decide, by decide⟩

/-- C9, amended: for every container reachable from the default-constructed one by `insert` and
`erase` calls, after a successful `insert` the load factor is below 0.75
(`4 * size < 3 * capacity`), and it is at least 0.25 (`capacity <= 4 * size`) as well if this
held, or the capacity was 1, before the insert; after a successful `erase` (which returns, given
more fuel than the capacity) the load factor is at least 0.25 and below 0.75 unless the
capacity is 1. -/
theorem load_factor_after_update (m : HashMap K V) (hr : Reachable stdHash m) (k : K) (v : V)
    (fuel : Nat) :
    (contains_key stdHash m k = false →
      (insert stdHash m k v).1 = true ∧
      4 * size (insert stdHash m k v).2 < 3 * capacity (insert stdHash m k v).2 ∧
      (capacity m ≤ 4 * size m ∨ capacity m = 1 →
        capacity (insert stdHash m k v).2 ≤ 4 * size (insert stdHash m k v).2)) ∧
    (contains_key stdHash m k = true → m._capacity < (fuel : Int) →
      ∃ m', erase stdHash fuel m k = some (true, m')) ∧
    (∀ m', erase stdHash fuel m k = some (true, m') →
      (capacity m' ≤ 4 * size m' ∧ 4 * size m' < 3 * capacity m') ∨ capacity m' = 1) := by
  obtain ⟨hwf, _, hs0⟩ := reachable_invariant stdHash hr
  refine ⟨?_, ?_, ?_⟩
  · intro hc
    obtain ⟨h1, _, h3, _, h5⟩ := insert_absent_spec stdHash hwf k v hc
    refine ⟨h1, (reachable_invariant stdHash (Reachable.insert k v hr)).2.1, ?_⟩
    intro hlow
    show (insert stdHash m k v).2._capacity ≤ 4 * (insert stdHash m k v).2._size
    have hlow' : m._capacity ≤ 4 * m._size ∨ m._capacity = 1 := hlow
    have := hwf.capacity_pow2.1
    rw [h3, h5]
    split <;> omega
  · intro hc hfuel
    obtain ⟨n, hn⟩ := hwf.capacity_pow2.2
    obtain ⟨m', _, h1, _⟩ :=
      erase_present_spec stdHash hwf k hc n fuel hn (pow_two_exponent_lt hn hfuel)
    exact ⟨m', h1⟩
  · intro m' he
    have hup : 4 * m'._size < 3 * m'._capacity :=
      (reachable_invariant stdHash (Reachable.erase fuel k hr he)).2.1
    cases hc : contains_key stdHash m k with
    | false =>
      rw [erase_absent_spec stdHash m k fuel hc] at he
      cases he
    | true =>
      obtain ⟨n, hn⟩ := hwf.capacity_pow2.2
      obtain ⟨m'', _, h1, _, _, _, _, h6⟩ :=
        erase_present_spec stdHash hwf k hc n (max fuel (n + 2)) hn (le_max_right _ _)
      rw [erase_mono stdHash m k fuel _ _ (le_max_left _ _) he] at h1
      cases h1
      rcases h6 with ⟨_, hc1⟩ | ⟨_, j, _, hcap, hle, _⟩
      · exact Or.inr hc1
      · left
        refine ⟨?_, hup⟩
        show m'._capacity ≤ 4 * m'._size
        rw [hcap]; exact hle

theorem load_factor_after_update_witness :
    Reachable natHash example_map2 ∧ contains_key natHash example_map2 3 = true ∧
    example_map2._capacity < ((17 : Nat) : Int) ∧
    ∃ m', erase natHash 17 example_map2 3 = some (true, m') ∧
      ((capacity m' ≤ 4 * size m' ∧ 4 * size m' < 3 * capacity m') ∨ capacity m' = 1) :=
  have hr : Reachable natHash example_map2 :=
    Reachable.insert 5 50 (Reachable.insert 3 30 Reachable.default)
  have h := load_factor_after_update natHash example_map2 hr 3 0 17
  have ⟨m', hm'⟩ := h.2.1 (by decide) (by decide)
  ⟨hr, by decide, by decide, m', hm', h.2.2 m' hm'⟩

/-- C10: for well-formed containers `a` and `b`, with whatever capacities and bucket layouts,
`a == b` is true exactly when both store the same key-value pairs: for every key `contains_key`
agrees and, when the key is contained, `at` agrees.  In particular `operator==` is symmetric,
and `a != b` is its negation. -/
theorem operator_eq_correct [DecidableEq V] (a b : HashMap K V) (hwa : WellFormed stdHash a)
    (hwb : WellFormed stdHash b) :
    (operator_eq stdHash a b = true ↔
      ∀ k, contains_key stdHash a k = contains_key stdHash b k ∧
        (contains_key stdHash a k = true → «at» stdHash a k = «at» stdHash b k)) ∧
    operator_eq stdHash a b = operator_eq stdHash b a ∧
    operator_ne stdHash a b = !operator_eq stdHash a b := by
  refine ⟨?_, ?_, rfl⟩
  · rw [operator_eq_iff_perm stdHash hwa hwb, perm_iff_lookup_eq stdHash hwa hwb]
  · rw [Bool.eq_iff_iff, operator_eq_iff_perm stdHash hwa hwb,
      operator_eq_iff_perm stdHash hwb hwa]
    exact ⟨List.Perm.symm, List.Perm.symm⟩

theorem operator_eq_correct_witness :
    WellFormed natHash example_map ∧ WellFormed natHash example_map_small ∧
    capacity example_map ≠ capacity example_map_small ∧
    operator_eq natHash example_map example_map_small = true ∧
    operator_eq natHash example_map example_map_small =
      operator_eq natHash example_map_small example_map :=
  have h := operator_eq_correct natHash example_map example_map_small example_map_wellFormed
    example_map_small_wellFormed
  ⟨example_map_wellFormed, example_map_small_wellFormed, by decide, by decide, h.2.1⟩

end ClaimTheorems3

section InsertAll
variable {K V : Type} [DecidableEq K] (stdHash : K → Nat)

open HashMap

/-- In a well-formed container `at` succeeds exactly on the contained keys. -/
theorem at_isOk_of_contains_key {m : HashMap K V} (hwf : WellFormed stdHash m) (k : K)
    (hc : contains_key stdHash m k = true) : ∃ v, «at» stdHash m k = .ok v := by
  obtain ⟨v, hv⟩ := (contains_key_iff stdHash hwf k).1 hc
  exact ⟨v, (at_eq_ok_iff stdHash hwf k v).2 hv⟩

/-- Inserting a list of pairs, in order, into a well-formed container: the container stays
well-formed, a key is contained afterwards iff it was contained or occurs in the list, and a
key that was not contained gets the value of its first occurrence in the list. -/
theorem insert_all_lookup (kvs : List (K × V)) {m : HashMap K V} (hwf : WellFormed stdHash m) :
    WellFormed stdHash (insert_all stdHash m kvs) ∧
    (∀ k, contains_key stdHash (insert_all stdHash m kvs) k =
      (contains_key stdHash m k || decide (k ∈ kvs.map Prod.fst))) ∧
    (∀ k, «at» stdHash (insert_all stdHash m kvs) k =
      if contains_key stdHash m k = true then «at» stdHash m k
      else match kvs.find? (fun p => decide (p.1 = k)) with
        | some p => .ok p.2
        | none => .error Exception.out_of_range) := by
  induction kvs generalizing m with
  | nil =>
    refine ⟨hwf, fun k => by simp [insert_all], fun k => ?_⟩
    cases hc : contains_key stdHash m k with
    | true => simp [insert_all]
    | false =>
      simp only [insert_all, List.foldl_nil, List.find?_nil, Bool.false_eq_true, if_false]
      exact (at_eq_error_iff stdHash m k _).2 ⟨hc, rfl⟩
  | cons p rest ih =>
    rw [insert_all_cons]
    cases hp : contains_key stdHash m p.1 with
    | true =>
      rw [insert_present_spec stdHash m p.1 p.2 hp]
      obtain ⟨i1, i2, i3⟩ := ih hwf
      refine ⟨i1, fun k => ?_, fun k => ?_⟩
      · rw [i2 k]
        by_cases hk : p.1 = k
        · subst hk; simp [hp]
        · have hb : (k == p.1) = false := beq_eq_false_iff_ne.2 (fun h => hk h.symm)
          simp [hb]
      · rw [i3 k]
        cases hc : contains_key stdHash m k with
        | true => simp
        | false =>
          have hk : ¬ p.1 = k := by
            intro h; rw [h] at hp; rw [hp] at hc; cases hc
          simp [List.find?_cons, hk]
    | false =>
      obtain ⟨_, h2, _, _, _⟩ := insert_absent_spec stdHash hwf p.1 p.2 hp
      obtain ⟨l1, l2, l3⟩ := insert_absent_lookup stdHash hwf p.1 p.2 hp
      obtain ⟨i1, i2, i3⟩ := ih h2
      refine ⟨i1, fun k => ?_, fun k => ?_⟩
      · rw [i2 k]
        by_cases hk : k = p.1
        · subst hk; simp [l1]
        · rw [(l3 k hk).1]
          have hb : (k == p.1) = false := beq_eq_false_iff_ne.2 hk
          simp [hb]
      · rw [i3 k]
        by_cases hk : k = p.1
        · subst hk
          simp [l1, l2, hp, List.find?_cons]
        · rw [(l3 k hk).1, (l3 k hk).2]
          have hk' : ¬ p.1 = k := fun h => hk h.symm
          simp [List.find?_cons, hk']

theorem contains_default (k : K) :
    contains_key stdHash (HashMap.default : HashMap K V) k = false := by
  rw [contains_key_eq_false_iff stdHash (default_wellFormed stdHash), default_flatten]
  intro w hw
  cases hw

/-- The size of a well-formed container is the length of any duplicate-free list of exactly
its keys. -/
theorem size_eq_length_of_keys {m : HashMap K V} (hwf : WellFormed stdHash m) (ks : List K)
    (hnd : ks.Nodup) (hmem : ∀ k, k ∈ ks ↔ contains_key stdHash m k = true) :
    m._size = (ks.length : Int) := by
  have hp : (m._buckets.flatten.map Prod.fst).Perm ks := by
    rw [List.perm_ext_iff_of_nodup hwf.unique_keys hnd]
    intro k
    rw [hmem k, contains_key_iff_mem_keys stdHash hwf]
  rw [← hp.length_eq, List.length_map, List.length_flatten]
  exact hwf.size_eq

end InsertAll

section Claim11
variable {K V : Type} [DecidableEq K] (stdHash : K → Nat)

open HashMap

theorem find_key_value_eq_of_perm {kvs kvs' : List (K × V)} (hperm : kvs.Perm kvs')
    (hcons : ∀ p ∈ kvs, ∀ q ∈ kvs, p.1 = q.1 → p.2 = q.2) (k : K) :
    (match kvs.find? (fun p => decide (p.1 = k)) with
      | some p => (Except.ok p.2 : Except Exception V)
      | none => .error Exception.out_of_range) =
    (match kvs'.find? (fun p => decide (p.1 = k)) with
      | some p => (Except.ok p.2 : Except Exception V)
      | none => .error Exception.out_of_range) := by
  cases h1 : kvs.find? (fun p => decide (p.1 = k)) with
  | none =>
    cases h2 : kvs'.find? (fun p => decide (p.1 = k)) with
    | none => rfl
    | some q =>
      rw [List.find?_eq_none] at h1
      exact absurd (List.find?_some h2) (h1 q (hperm.mem_iff.2 (List.mem_of_find?_eq_some h2)))
  | some p =>
    cases h2 : kvs'.find? (fun p => decide (p.1 = k)) with
    | none =>
      rw [List.find?_eq_none] at h2
      exact absurd (List.find?_some h1) (h2 p (hperm.mem_iff.1 (List.mem_of_find?_eq_some h1)))
    | some q =>
      have hp : p.1 = k := by simpa using List.find?_some h1
      have hq : q.1 = k := by simpa using List.find?_some h2
      have := hcons p (List.mem_of_find?_eq_some h1) q
        (hperm.mem_iff.2 (List.mem_of_find?_eq_some h2)) (hp.trans hq.symm)
      simp only [this]

/-- C11, the claim as stated fails: the sequence `[(1, 1), (1, 2)]` and its permutation
`[(1, 2), (1, 1)]` give containers that store the key 1 with the values 1 and 2, and
`operator==` returns false on them. -/
theorem insertion_order_counterexample :
    [((1 : Nat), (2 : Nat)), (1, 1)].Perm [(1, 1), (1, 2)] ∧
    «at» natHash (insert_all natHash (HashMap.default : HashMap Nat Nat) [(1, 1), (1, 2)]) 1 =
      .ok 1 ∧
    «at» natHash (insert_all natHash (HashMap.default : HashMap Nat Nat) [(1, 2), (1, 1)]) 1 =
      .ok 2 ∧
    operator_eq natHash
      (insert_all natHash (HashMap.default : HashMap Nat Nat) [(1, 1), (1, 2)])
      (insert_all natHash (HashMap.default : HashMap Nat Nat) [(1, 2), (1, 1)]) = false :=
  ⟨List.Perm.swap _ _ _, rfl, rfl, by decide⟩

/-- C11, amended: for every sequence of key-value pairs in which any two pairs with equal keys
have equal values (in particular every sequence with pairwise distinct keys) and every
permutation of it, inserting the pairs of the sequence in order into a default-constructed
container and inserting the pairs of the permutation in order into another one gives containers
that compare equal via `operator==`. -/
theorem insertion_order_irrelevant [DecidableEq V] (kvs kvs' : List (K × V))
    (hperm : kvs.Perm kvs') (hcons : ∀ p ∈ kvs, ∀ q ∈ kvs, p.1 = q.1 → p.2 = q.2) :
    operator_eq stdHash (insert_all stdHash (HashMap.default : HashMap K V) kvs)
      (insert_all stdHash (HashMap.default : HashMap K V) kvs') = true := by
  obtain ⟨a1, a2, a3⟩ := insert_all_lookup stdHash kvs (default_wellFormed stdHash (V := V))
  obtain ⟨b1, b2, b3⟩ := insert_all_lookup stdHash kvs' (default_wellFormed stdHash (V := V))
  rw [operator_eq_iff_perm stdHash a1 b1, perm_iff_lookup_eq stdHash a1 b1]
  intro k
  refine ⟨?_, fun _ => ?_⟩
  · rw [a2 k, b2 k]
    congr 1
    rw [Bool.eq_iff_iff, decide_eq_true_iff, decide_eq_true_iff]
    exact (hperm.map Prod.fst).mem_iff
  · rw [a3 k, b3 k]
    simp only [contains_default, Bool.false_eq_true, if_false]
    exact find_key_value_eq_of_perm hperm hcons k

theorem insertion_order_irrelevant_witness :
    [((3 : Nat), (30 : Nat)), (5, 50), (3, 30)].Perm [(5, 50), (3, 30), (3, 30)] ∧
    operator_eq natHash
      (insert_all natHash (HashMap.default : HashMap Nat Nat) [(3, 30), (5, 50), (3, 30)])
      (insert_all natHash (HashMap.default : HashMap Nat Nat) [(5, 50), (3, 30), (3, 30)]) =
      true :=
  ⟨List.Perm.swap _ _ _,
    insertion_order_irrelevant natHash [(3, 30), (5, 50), (3, 30)] [(5, 50), (3, 30), (3, 30)]
      (List.Perm.swap _ _ _) (by decide)⟩

end Claim11

section Claim12
variable {K V : Type} [DecidableEq K] (stdHash : K → Nat)

open HashMap

/-- The walk from `begin ()` by `operator++` up to `end ()`, with any fuel above the number of
stored pairs. -/
theorem traverse_loop_begin_eq_flatten (m : HashMap K V)
    (hlen : (m._buckets.length : Int) = m._capacity) (fuel : Nat)
    (hfuel : (m._buckets.map List.length).sum < fuel) :
    traverse_loop m fuel (HashMap.begin m) = m._buckets.flatten := by
  have hc : m._capacity = ((m._buckets.length : Nat) : Int) := hlen.symm
  obtain ⟨b', _, h2, h3, h4, h5⟩ :=
    begin_loop_spec m m._buckets.length hc m._buckets.length 0 (Nat.zero_le _) (by omega)
  have hfl : m._capacity.toNat = m._buckets.length := by omega
  unfold HashMap.begin
  rw [hfl]
  have h5' : begin_loop m m._buckets.length 0 = _ := h5
  rw [h5']
  rw [List.drop_zero] at h3
  by_cases hb' : b' < m._buckets.length
  · rw [if_pos hb']
    have hpos : 0 < (m._buckets.getD b' []).length := List.length_pos.2 (h4 hb')
    have hlf : m._buckets.flatten.length = (m._buckets.map List.length).sum :=
      List.length_flatten _
    have := traverse_loop_spec m m._buckets.length hc rfl fuel b' 0 hb' hpos (by
        rw [List.drop_zero, ← List.length_append, ← flatten_drop_eq_getD_append, ← h3]
        omega)
    rw [List.drop_zero, ← flatten_drop_eq_getD_append, ← h3] at this
    exact this
  · rw [if_neg hb', h3, List.drop_eq_nil_of_le (by omega)]
    exact traverse_loop_end m _ _ _

/-- The cursor `begin ()` equals `end ()` exactly when no pair is stored. -/
theorem begin_eq_end_iff (m : HashMap K V) (hlen : (m._buckets.length : Int) = m._capacity) :
    (HashMap.begin m).eq (end_ m) = true ↔ m._buckets.flatten = [] := by
  have hc : m._capacity = ((m._buckets.length : Nat) : Int) := hlen.symm
  obtain ⟨b', _, h2, h3, h4, h5⟩ :=
    begin_loop_spec m m._buckets.length hc m._buckets.length 0 (Nat.zero_le _) (by omega)
  have hfl : m._capacity.toNat = m._buckets.length := by omega
  unfold HashMap.begin
  rw [hfl]
  have h5' : begin_loop m m._buckets.length 0 = _ := h5
  rw [h5']
  rw [List.drop_zero] at h3
  by_cases hb' : b' < m._buckets.length
  · rw [if_pos hb']
    have hne : m._buckets.flatten ≠ [] := by
      rw [h3, flatten_drop_eq_getD_append]
      intro h
      exact h4 hb' (List.append_eq_nil.1 h).1
    simp [ConstIterator.eq, end_, hne]
  · rw [if_neg hb', h3, List.drop_eq_nil_of_le (by omega)]
    simp [ConstIterator.eq]

theorem buckets_eq_map_range (bs : List (hashmap_bucket K V)) :
    bs = (List.range bs.length).map (fun (i : Nat) => bucket_at bs (i : Int)) := by
  apply List.ext_getElem
  · simp
  · intro i h1 h2
    simp only [List.getElem_map, List.getElem_range, bucket_at_natCast]
    simp [List.getD_eq_getElem?_getD, List.getElem?_eq_getElem h1]

/-- One `operator++` from a cursor on a stored pair: the new cursor is on the next stored pair
in bucket order, or its `_kv` is `nullptr` and no stored pair follows. -/
theorem next_spec (m : HashMap K V) (c : Nat) (hc : m._capacity = (c : Int))
    (hlen : m._buckets.length = c) (b i : Nat) (hb : b < c)
    (hi : i < (m._buckets.getD b []).length) :
    ((m._buckets.getD b []).drop (i + 1) ++ (m._buckets.drop (b + 1)).flatten = [] ∧
      (ConstIterator.next m
        { _kv := some ((b : Int), (i : Int)), _bucket := b, _index := i })._kv = none) ∨
    ∃ b' i' : Nat,
      ConstIterator.next m { _kv := some ((b : Int), (i : Int)), _bucket := b, _index := i } =
        { _kv := some ((b' : Int), (i' : Int)), _bucket := b', _index := i' } ∧
      b' < c ∧ i' < (m._buckets.getD b' []).length ∧
      (m._buckets.getD b' []).drop i' ++ (m._buckets.drop (b' + 1)).flatten =
        (m._buckets.getD b []).drop (i + 1) ++ (m._buckets.drop (b + 1)).flatten := by
  by_cases hnext : i + 1 < (m._buckets.getD b []).length
  · right
    refine ⟨b, i + 1, ?_, hb, hnext, rfl⟩
    simp only [ConstIterator.next, bucket_at_natCast, hc]
    have h1 : ¬ ((i : Int) + 1 ≥ ((m._buckets.getD b []).length : Int)) := by omega
    have h2 : (b : Int) < (c : Int) := by omega
    simp [-List.getD_eq_getElem?_getD, h1, h2]
  · have hdn : (m._buckets.getD b []).drop (i + 1) = [] :=
      List.drop_eq_nil_of_le (by omega)
    obtain ⟨b', h1, h2, h3, h4, h5⟩ :=
      skip_empty_spec m c hc (c - (b + 1)) (b + 1) (by omega) (le_refl _)
    have hfuel : (m._capacity - ((b : Int) + 1)).toNat = c - (b + 1) := by omega
    have hcond : ((i : Int) + 1 ≥ ((m._buckets.getD b []).length : Int)) := by omega
    have h1' : skip_empty m (c - (b + 1)) ((b : Int) + 1) = (b' : Int) := by
      rw [← h1]; norm_cast
    rw [hdn, List.nil_append, h4]
    by_cases hb' : b' < c
    · right
      refine ⟨b', 0, ?_, hb', List.length_pos.2 (h5 hb'), ?_⟩
      · simp only [ConstIterator.next, bucket_at_natCast, hfuel]
        have h2' : (b' : Int) < m._capacity := by omega
        simp [-List.getD_eq_getElem?_getD, hcond, h1', h2']
      · rw [List.drop_zero, ← flatten_drop_eq_getD_append]
    · left
      refine ⟨by rw [List.drop_eq_nil_of_le (by omega)]; rfl, ?_⟩
      simp only [ConstIterator.next, bucket_at_natCast, hfuel]
      have h2' : ¬ ((b' : Int) < m._capacity) := by omega
      simp [-List.getD_eq_getElem?_getD, hcond, h1', h2']

/-- A cursor on a stored pair differs from `end ()` and dereferences to that pair. -/
theorem cursor_on_pair (m : HashMap K V) (b i : Nat) :
    ConstIterator.eq { _kv := some ((b : Int), (i : Int)), _bucket := b, _index := i }
      (end_ m) = false ∧
    ConstIterator.deref m { _kv := some ((b : Int), (i : Int)), _bucket := b, _index := i } =
      (m._buckets.getD b [])[i]? := by
  refine ⟨by simp [ConstIterator.eq, end_], ?_⟩
  simp only [ConstIterator.deref, bucket_at_natCast]
  have : ¬ ((i : Int) < 0) := by omega
  simp [-List.getD_eq_getElem?_getD, this]

/-- The walk from a cursor on a stored pair reaches `end ()` and meets the pairs from that
pair on, in bucket order. -/
theorem walk_spec (m : HashMap K V) (c : Nat) (hc : m._capacity = (c : Int))
    (hlen : m._buckets.length = c) (fuel b i : Nat) (hb : b < c)
    (hi : i < (m._buckets.getD b []).length)
    (hf : ((m._buckets.getD b []).drop i ++ (m._buckets.drop (b + 1)).flatten).length < fuel) :
    walk m fuel { _kv := some ((b : Int), (i : Int)), _bucket := b, _index := i } =
      some ((m._buckets.getD b []).drop i ++ (m._buckets.drop (b + 1)).flatten) := by
  induction fuel generalizing b i with
  | zero => omega
  | succ fuel ih =>
    obtain ⟨hne, hderef⟩ := cursor_on_pair m b i
    rw [List.getElem?_eq_getElem hi] at hderef
    have hdrop : (m._buckets.getD b []).drop i =
        (m._buckets.getD b [])[i] :: (m._buckets.getD b []).drop (i + 1) :=
      List.drop_eq_getElem_cons hi
    rw [hdrop, List.cons_append] at hf ⊢
    simp only [List.length_cons] at hf
    unfold walk
    simp only [hne, Bool.false_eq_true, if_false, hderef]
    rcases next_spec m c hc hlen b i hb hi with ⟨hnil, hkv⟩ | ⟨b', i', hstep, hb', hi', hrest⟩
    · have hw : walk m fuel (ConstIterator.next m
          { _kv := some ((b : Int), (i : Int)), _bucket := b, _index := i }) = some [] := by
        obtain ⟨g, rfl⟩ : ∃ g, fuel = g + 1 := ⟨fuel - 1, by omega⟩
        unfold walk
        simp [ConstIterator.eq, end_, hkv]
      rw [hw, hnil]
    · rw [hstep, ih b' i' hb' hi' (by rw [hrest]; omega), hrest]

/-- The cursors of the walk from a cursor on a stored pair: the cursor after `n` increments is
on the `n`-th of the remaining pairs, and after as many increments as there are remaining pairs
it equals `end ()`. -/
theorem iterate_next_spec (m : HashMap K V) (c : Nat) (hc : m._capacity = (c : Int))
    (hlen : m._buckets.length = c) (rest : List (K × V)) (b i : Nat) (hb : b < c)
    (hi : i < (m._buckets.getD b []).length)
    (hrest : (m._buckets.getD b []).drop i ++ (m._buckets.drop (b + 1)).flatten = rest) :
    (∀ n : Nat, n < rest.length →
      ConstIterator.eq ((ConstIterator.next m)^[n]
        { _kv := some ((b : Int), (i : Int)), _bucket := b, _index := i }) (end_ m) = false ∧
      ConstIterator.deref m ((ConstIterator.next m)^[n]
        { _kv := some ((b : Int), (i : Int)), _bucket := b, _index := i }) = rest[n]?) ∧
    ConstIterator.eq ((ConstIterator.next m)^[rest.length]
      { _kv := some ((b : Int), (i : Int)), _bucket := b, _index := i }) (end_ m) = true := by
  induction rest generalizing b i with
  | nil =>
    have hdrop : (m._buckets.getD b []).drop i =
        (m._buckets.getD b [])[i] :: (m._buckets.getD b []).drop (i + 1) :=
      List.drop_eq_getElem_cons hi
    rw [hdrop] at hrest
    cases hrest
  | cons x rest' ih =>
    obtain ⟨hne, hderef⟩ := cursor_on_pair m b i
    have hdrop : (m._buckets.getD b []).drop i =
        (m._buckets.getD b [])[i] :: (m._buckets.getD b []).drop (i + 1) :=
      List.drop_eq_getElem_cons hi
    rw [hdrop, List.cons_append, List.cons.injEq] at hrest
    obtain ⟨hx, hrest'⟩ := hrest
    rw [List.getElem?_eq_getElem hi, hx] at hderef
    rcases next_spec m c hc hlen b i hb hi with ⟨hnil, hkv⟩ | ⟨b', i', hstep, hb', hi', hr⟩
    · rw [hrest'] at hnil
      subst hnil
      refine ⟨?_, ?_⟩
      · intro n hn
        have : n = 0 := by simpa using hn
        subst this
        exact ⟨hne, by simpa using hderef⟩
      · simp [ConstIterator.eq, end_, hkv]
    · obtain ⟨ih1, ih2⟩ := ih b' i' hb' hi' (hr.trans hrest')
      refine ⟨?_, ?_⟩
      · intro n hn
        cases n with
        | zero => exact ⟨hne, by simpa using hderef⟩
        | succ n =>
          rw [Function.iterate_succ_apply, hstep]
          simpa using ih1 n (by simpa using hn)
      · rw [List.length_cons, Function.iterate_succ_apply, hstep]
        exact ih2

/-- The cursor `begin ()` of a container whose bucket array has `_capacity` buckets is `end ()`
when nothing is stored, and is on the first stored pair otherwise. -/
theorem begin_spec (m : HashMap K V) (hlen : (m._buckets.length : Int) = m._capacity) :
    (m._buckets.flatten = [] ∧ HashMap.begin m = end_ m) ∨
    ∃ b : Nat,
      HashMap.begin m =
        { _kv := some ((b : Int), ((0 : Nat) : Int)), _bucket := b, _index := ((0 : Nat) : Int) } ∧
      b < m._buckets.length ∧ 0 < (m._buckets.getD b []).length ∧
      (m._buckets.getD b []).drop 0 ++ (m._buckets.drop (b + 1)).flatten =
        m._buckets.flatten := by
  have hc : m._capacity = ((m._buckets.length : Nat) : Int) := hlen.symm
  obtain ⟨b', _, h2, h3, h4, h5⟩ :=
    begin_loop_spec m m._buckets.length hc m._buckets.length 0 (Nat.zero_le _) (by omega)
  have hfl : m._capacity.toNat = m._buckets.length := by omega
  have h5' : begin_loop m m._buckets.length 0 = _ := h5
  rw [List.drop_zero] at h3
  unfold HashMap.begin
  rw [hfl, h5']
  by_cases hb' : b' < m._buckets.length
  · right
    rw [if_pos hb']
    refine ⟨b', rfl, hb', List.length_pos.2 (h4 hb'), ?_⟩
    rw [List.drop_zero, ← flatten_drop_eq_getD_append, ← h3]
  · left
    rw [if_neg hb']
    exact ⟨by rw [h3, List.drop_eq_nil_of_le (by omega)]; rfl, rfl⟩

/-- The walk from `begin ()` reaches `end ()` and meets the stored pairs in bucket order, with
any fuel above the number of stored pairs. -/
theorem walk_begin_eq_flatten (m : HashMap K V)
    (hlen : (m._buckets.length : Int) = m._capacity) (fuel : Nat)
    (hfuel : m._buckets.flatten.length < fuel) :
    walk m fuel (HashMap.begin m) = some m._buckets.flatten := by
  have hc : m._capacity = ((m._buckets.length : Nat) : Int) := hlen.symm
  rcases begin_spec m hlen with ⟨hnil, hbeg⟩ | ⟨b, hbeg, hb, hpos, hrest⟩
  · rw [hbeg, hnil]
    obtain ⟨g, rfl⟩ : ∃ g, fuel = g + 1 := ⟨fuel - 1, by omega⟩
    unfold walk
    simp [ConstIterator.eq]
  · rw [hbeg, walk_spec m m._buckets.length hc rfl fuel b 0 hb hpos (by rw [hrest]; exact hfuel),
      hrest]

/-- The cursors of the walk from `begin ()`: after `n` increments, with `n` below the number of
stored pairs, the cursor differs from `end ()` and is on the `n`-th pair in bucket order; after
as many increments as there are stored pairs it equals `end ()`. -/
theorem iterate_next_begin (m : HashMap K V)
    (hlen : (m._buckets.length : Int) = m._capacity) :
    (∀ n : Nat, n < m._buckets.flatten.length →
      ConstIterator.eq ((ConstIterator.next m)^[n] (HashMap.begin m)) (end_ m) = false ∧
      ConstIterator.deref m ((ConstIterator.next m)^[n] (HashMap.begin m)) =
        m._buckets.flatten[n]?) ∧
    ConstIterator.eq ((ConstIterator.next m)^[m._buckets.flatten.length] (HashMap.begin m))
      (end_ m) = true := by
  have hc : m._capacity = ((m._buckets.length : Nat) : Int) := hlen.symm
  rcases begin_spec m hlen with ⟨hnil, hbeg⟩ | ⟨b, hbeg, hb, hpos, hrest⟩
  · rw [hbeg, hnil]
    refine ⟨fun n hn => by simp at hn, ?_⟩
    simp [ConstIterator.eq]
  · rw [hbeg]
    exact iterate_next_spec m m._buckets.length hc rfl _ b 0 hb hpos hrest

/-- C12: for a well-formed container, the walk that starts at `begin ()` and applies
`operator++` until the cursor compares equal to `end ()` reaches `end ()` (with any fuel above
`size ()`), and the pairs it meets are the concatenation of the buckets `0, ..., capacity - 1`
in ascending index order, each in its stored order.  The sequence has `size ()` elements, has no
duplicates and consists of exactly the stored pairs.  Cursor by cursor: after `n < size ()`
increments the cursor differs from `end ()` and dereferences to the `n`-th pair of the
concatenation, and after `size ()` increments it equals `end ()`.  `begin () == end ()` holds
exactly when the container is empty. -/
theorem traversal_complete (m : HashMap K V) (hwf : WellFormed stdHash m) (fuel : Nat)
    (hfuel : size m < (fuel : Int)) :
    walk m fuel (HashMap.begin m) =
      some ((List.range m._buckets.length).map
        (fun (i : Nat) => bucket_at m._buckets (i : Int))).flatten ∧
    traverse_loop m fuel (HashMap.begin m) =
      ((List.range m._buckets.length).map (fun (i : Nat) => bucket_at m._buckets (i : Int))).flatten ∧
    (m._buckets.length : Int) = capacity m ∧
    ((traverse_loop m fuel (HashMap.begin m)).length : Int) = size m ∧
    (traverse_loop m fuel (HashMap.begin m)).Nodup ∧
    (∀ p, p ∈ traverse_loop m fuel (HashMap.begin m) ↔
      ∃ i : Nat, (i : Int) < capacity m ∧ p ∈ bucket_at m._buckets (i : Int)) ∧
    ((HashMap.begin m).eq (end_ m) = true ↔ empty m = true) ∧
    (∀ n : Nat, (n : Int) < size m →
      ConstIterator.eq ((ConstIterator.next m)^[n] (HashMap.begin m)) (end_ m) = false ∧
      ConstIterator.deref m ((ConstIterator.next m)^[n] (HashMap.begin m)) =
        ((List.range m._buckets.length).map
          (fun (i : Nat) => bucket_at m._buckets (i : Int))).flatten[n]?) ∧
    (∀ n : Nat, (n : Int) = size m →
      ConstIterator.eq ((ConstIterator.next m)^[n] (HashMap.begin m)) (end_ m) = true) := by
  have hsz := hwf.size_eq
  have hlen := hwf.buckets_length
  have hlf : m._buckets.flatten.length = (m._buckets.map List.length).sum :=
    List.length_flatten _
  have hf : (m._buckets.map List.length).sum < fuel := by
    have : m._size < (fuel : Int) := hfuel
    omega
  have htr := traverse_loop_begin_eq_flatten m hlen fuel hf
  have hwalk := walk_begin_eq_flatten m hlen fuel (by omega)
  obtain ⟨hit1, hit2⟩ := iterate_next_begin m hlen
  rw [← buckets_eq_map_range, htr]
  refine ⟨hwalk, rfl, hlen, ?_, List.Nodup.of_map _ hwf.unique_keys, ?_, ?_, ?_, ?_⟩
  · rw [List.length_flatten]
    exact hsz.symm
  · intro p
    rw [mem_flatten_iff_getD]
    constructor
    · rintro ⟨i, hi, hp⟩
      exact ⟨i, by show (i : Int) < m._capacity; omega, by rw [bucket_at_natCast]; exact hp⟩
    · rintro ⟨i, hi, hp⟩
      have hi' : (i : Int) < m._capacity := hi
      rw [bucket_at_natCast] at hp
      exact ⟨i, by omega, hp⟩
  · rw [begin_eq_end_iff m hlen]
    unfold empty
    rw [decide_eq_true_iff, hsz, ← List.length_flatten]
    constructor
    · intro h; rw [h]; rfl
    · intro h
      have : m._buckets.flatten.length = 0 := by exact_mod_cast h
      exact List.length_eq_zero.1 this
  · intro n hn
    have hn' : (n : Int) < m._size := hn
    exact hit1 n (by omega)
  · intro n hn
    have hn' : (n : Int) = m._size := hn
    have : n = m._buckets.flatten.length := by omega
    rw [this]
    exact hit2

theorem traversal_complete_witness :
    WellFormed natHash example_map2 ∧ size example_map2 < ((3 : Nat) : Int) ∧
    walk example_map2 3 (HashMap.begin example_map2) = some [(3, 30), (5, 50)] ∧
    traverse_loop example_map2 3 (HashMap.begin example_map2) = [(3, 30), (5, 50)] ∧
    ((traverse_loop example_map2 3 (HashMap.begin example_map2)).length : Int) =
      size example_map2 ∧
    ConstIterator.eq ((ConstIterator.next example_map2)^[1] (HashMap.begin example_map2))
      (end_ example_map2) = false ∧
    ConstIterator.eq ((ConstIterator.next example_map2)^[2] (HashMap.begin example_map2))
      (end_ example_map2) = true :=
  have h := traversal_complete natHash example_map2 example_map2_wellFormed 3 (by decide)
  ⟨example_map2_wellFormed, by decide, h.1.trans (by decide), h.2.1.trans (by decide),
    h.2.2.2.1, (h.2.2.2.2.2.2.2.1 1 (by decide)).1, h.2.2.2.2.2.2.2.2 2 (by decide)⟩

end Claim12

section Claim13
variable {K V : Type} [DecidableEq K] (stdHash : K → Nat)

open HashMap

/-- In the zip of two lists of the same length, the first pair with a given key carries the
value at the position of the key's first occurrence. -/
theorem find_zip_indexOf (keys : List K) (values : List V)
    (hlen : keys.length = values.length) (k : K) (hk : k ∈ keys) :
    ∃ v, values[keys.indexOf k]? = some v ∧
      (keys.zip values).find? (fun p => decide (p.1 = k)) = some (k, v) := by
  induction keys generalizing values with
  | nil => cases hk
  | cons a ks ih =>
    cases values with
    | nil => simp at hlen
    | cons b vs =>
      simp only [List.length_cons, Nat.add_right_cancel_iff] at hlen
      by_cases hak : a = k
      · subst hak
        exact ⟨b, by simp, by simp [List.find?_cons]⟩
      · have hk' : k ∈ ks := by
          rcases List.mem_cons.1 hk with h | h
          · exact absurd h.symm hak
          · exact h
        obtain ⟨v, h1, h2⟩ := ih vs hlen hk'
        refine ⟨v, ?_, ?_⟩
        · rw [List.indexOf_cons_ne _ hak]
          simpa using h1
        · simp only [List.zip_cons_cons, List.find?_cons, hak, decide_False]
          exact h2

/-- C13: the paired-sequence constructor throws `length_error` exactly when `keys` and `values`
have different lengths.  When the lengths are equal it returns a (well-formed) container that
contains exactly the keys occurring in `keys`, whose `size ()` is the number of distinct keys,
and in which `at (key)` is the value at the position of the first occurrence of the key.  For
every hash function, keys `["a", "b", "c"]` and values `["1", "2", "3"]` give `size () == 3`,
`at ("b") == "2"` and `contains_key ("d") == false`. -/
theorem from_vectors_correct (keys : List K) (values : List V) :
    (from_vectors stdHash keys values = .error Exception.length_error ↔
      keys.length ≠ values.length) ∧
    (keys.length = values.length →
      ∃ m : HashMap K V, from_vectors stdHash keys values = .ok m ∧ WellFormed stdHash m ∧
        (∀ k, contains_key stdHash m k = true ↔ k ∈ keys) ∧
        size m = (keys.dedup.length : Int) ∧
        ∀ k ∈ keys, ∃ v, values[keys.indexOf k]? = some v ∧ «at» stdHash m k = .ok v) ∧
    (∀ stringHash : String → Nat,
      ∃ d : Dictionary, from_vectors stringHash ["a", "b", "c"] ["1", "2", "3"] = .ok d ∧
        size d = 3 ∧ «at» stringHash d "b" = .ok "2" ∧ contains_key stringHash d "d" = false) := by
  have main : ∀ (K' V' : Type) [DecidableEq K'] (h : K' → Nat) (ks : List K') (vs : List V'),
      ks.length = vs.length →
      ∃ m : HashMap K' V', from_vectors h ks vs = .ok m ∧ WellFormed h m ∧
        (∀ k, contains_key h m k = true ↔ k ∈ ks) ∧
        size m = (ks.dedup.length : Int) ∧
        ∀ k ∈ ks, ∃ v, vs[ks.indexOf k]? = some v ∧ «at» h m k = .ok v := by
    intro K' V' _ h ks vs hlen
    obtain ⟨a1, a2, a3⟩ := insert_all_lookup h (ks.zip vs) (default_wellFormed h (V := V'))
    have hkeys : (ks.zip vs).map Prod.fst = ks := List.map_fst_zip _ _ (le_of_eq hlen)
    have hcont : ∀ k, contains_key h (insert_all h (HashMap.default : HashMap K' V')
        (ks.zip vs)) k = true ↔ k ∈ ks := by
      intro k
      rw [a2 k, hkeys, contains_default]
      simp
    refine ⟨_, by simp [from_vectors, hlen], a1, hcont, ?_, ?_⟩
    · exact size_eq_length_of_keys h a1 ks.dedup (List.nodup_dedup ks)
        (fun k => by rw [List.mem_dedup, hcont])
    · intro k hk
      obtain ⟨v, h1, h2⟩ := find_zip_indexOf ks vs hlen k hk
      refine ⟨v, h1, ?_⟩
      rw [a3 k, contains_default, h2]
      simp
  refine ⟨?_, main K V stdHash keys values, ?_⟩
  · unfold from_vectors
    by_cases hlen : keys.length = values.length
    · simp [hlen]
    · simp [hlen]
  · intro stringHash
    obtain ⟨d, h1, _, h3, h4, h5⟩ :=
      main String String stringHash ["a", "b", "c"] ["1", "2", "3"] rfl
    refine ⟨d, h1, ?_, ?_, ?_⟩
    · rw [h4]; decide
    · obtain ⟨v, hv1, hv2⟩ := h5 "b" (by decide)
      have : v = "2" := by
        have h : (["a", "b", "c"] : List String).indexOf "b" = 1 := by decide
        rw [h] at hv1
        simpa using hv1.symm
      rw [hv2, this]
    · rw [← Bool.not_eq_true, h3]
      decide

theorem from_vectors_correct_witness :
    (from_vectors natHash [1, 2, 1] [10, 20] : Except Exception (HashMap Nat Nat)) =
      .error Exception.length_error ∧
    ∃ m : HashMap Nat Nat, from_vectors natHash [1, 2, 1] [10, 20, 30] = .ok m ∧
      size m = (([1, 2, 1] : List Nat).dedup.length : Int) ∧
      ∃ v, ([10, 20, 30] : List Nat)[([1, 2, 1] : List Nat).indexOf 1]? = some v ∧
        «at» natHash m 1 = .ok v :=
  have h := from_vectors_correct natHash [1, 2, 1] ([10, 20, 30] : List Nat)
  have ⟨m, h1, _, _, h4, h5⟩ := h.2.1 rfl
  ⟨(from_vectors_correct natHash [1, 2, 1] ([10, 20] : List Nat)).1.2 (by decide),
    m, h1, h4, h5 1 (by decide)⟩

end Claim13

section Claim14
variable {K V : Type} [DecidableEq K] (stdHash : K → Nat)

open HashMap

/-- C14: index-operator asymmetry on a well-formed container.  (1) The mutable `operator[]` on
an absent key leaves a container in which the key is contained with the default-constructed
value, to which the returned reference refers, `size ()` has grown by one and every other key
answers `contains_key` and `at` as before; on a contained key it leaves the container unchanged
and refers to the stored value.  (2) The const `operator[]` returns `at (key)` when the key is
contained and the default-constructed value when it is absent; being a function of the container
that returns only a value, it changes neither size, capacity nor buckets. -/
theorem operator_index_correct [Inhabited V] (m : HashMap K V) (hwf : WellFormed stdHash m)
    (k : K) :
    (contains_key stdHash m k = false →
      contains_key stdHash (operator_index stdHash m k).1 k = true ∧
      «at» stdHash (operator_index stdHash m k).1 k = .ok Inhabited.default ∧
      (operator_index stdHash m k).2 = .ok Inhabited.default ∧
      size (operator_index stdHash m k).1 = size m + 1 ∧
      ∀ k', k' ≠ k →
        contains_key stdHash (operator_index stdHash m k).1 k' = contains_key stdHash m k' ∧
        «at» stdHash (operator_index stdHash m k).1 k' = «at» stdHash m k') ∧
    (contains_key stdHash m k = true →
      (operator_index stdHash m k).1 = m ∧
      (operator_index stdHash m k).2 = «at» stdHash m k ∧
      ∃ v, «at» stdHash m k = .ok v ∧ (k, v) ∈ m._buckets.flatten) ∧
    (contains_key stdHash m k = true →
      operator_index_const stdHash m k = «at» stdHash m k ∧
      ∃ v, operator_index_const stdHash m k = .ok v ∧ (k, v) ∈ m._buckets.flatten) ∧
    (contains_key stdHash m k = false →
      operator_index_const stdHash m k = .ok Inhabited.default) := by
  have hpres : contains_key stdHash m k = true →
      ∃ v, «at» stdHash m k = .ok v ∧ (k, v) ∈ m._buckets.flatten := by
    intro hc
    obtain ⟨v, hv⟩ := (contains_key_iff stdHash hwf k).1 hc
    exact ⟨v, (at_eq_ok_iff stdHash hwf k v).2 hv, hv⟩
  refine ⟨?_, ?_, ?_, ?_⟩
  · intro hc
    obtain ⟨_, _, h3, _, _⟩ := insert_absent_spec stdHash hwf k (Inhabited.default : V) hc
    obtain ⟨l1, l2, l3⟩ := insert_absent_lookup stdHash hwf k (Inhabited.default : V) hc
    simp only [operator_index, hc, Bool.not_false, if_true]
    exact ⟨l1, l2, l2, h3, l3⟩
  · intro hc
    simp only [operator_index, hc, Bool.not_true, Bool.false_eq_true, if_false]
    exact ⟨trivial, trivial, hpres hc⟩
  · intro hc
    obtain ⟨v, h1, h2⟩ := hpres hc
    simp only [operator_index_const, hc, Bool.not_true, Bool.false_eq_true, if_false]
    exact ⟨trivial, v, h1, h2⟩
  · intro hc
    simp [operator_index_const, hc]

theorem operator_index_correct_witness :
    WellFormed natHash example_map ∧ contains_key natHash example_map 7 = false ∧
    contains_key natHash (operator_index natHash example_map 7).1 7 = true ∧
    size (operator_index natHash example_map 7).1 = size example_map + 1 ∧
    operator_index_const natHash example_map 7 = .ok 0 ∧
    (operator_index natHash example_map 3).1 = example_map :=
  have h7 := operator_index_correct natHash example_map example_map_wellFormed 7
  have h3 := operator_index_correct natHash example_map example_map_wellFormed 3
  ⟨example_map_wellFormed, by decide, (h7.1 (by decide)).1, (h7.1 (by decide)).2.2.2.1,
    h7.2.2.2 (by decide), (h3.2.1 (by decide)).1⟩

end Claim14

section Assign
variable {K V : Type} [DecidableEq K] (stdHash : K → Nat)

open HashMap

theorem map_fst_assign_first (k : K) (v : V) (b : hashmap_bucket K V) :
    (assign_first k v b).map Prod.fst = b.map Prod.fst := by
  induction b with
  | nil => rfl
  | cons kv rest ih =>
    unfold assign_first
    split
    · rfl
    · simp [ih]

theorem mem_assign_first_self (k : K) (v : V) (b : hashmap_bucket K V)
    (h : ∃ w, (k, w) ∈ b) : (k, v) ∈ assign_first k v b := by
  induction b with
  | nil => obtain ⟨w, hw⟩ := h; cases hw
  | cons kv rest ih =>
    unfold assign_first
    by_cases hk : kv.1 = k
    · rw [if_pos hk, hk]
      exact List.mem_cons_self _ _
    · rw [if_neg hk]
      obtain ⟨w, hw⟩ := h
      rcases List.mem_cons.1 hw with heq | hmem
      · exact absurd (by rw [← heq]) hk
      · exact List.mem_cons_of_mem _ (ih ⟨w, hmem⟩)

theorem mem_of_mem_assign_first (k : K) (v : V) (b : hashmap_bucket K V) (p : K × V)
    (h : p ∈ assign_first k v b) : p ∈ b ∨ p = (k, v) := by
  induction b with
  | nil => cases h
  | cons kv rest ih =>
    unfold assign_first at h
    by_cases hk : kv.1 = k
    · rw [if_pos hk] at h
      rcases List.mem_cons.1 h with heq | hmem
      · right; rw [heq, hk]
      · left; exact List.mem_cons_of_mem _ hmem
    · rw [if_neg hk] at h
      rcases List.mem_cons.1 h with heq | hmem
      · left; rw [heq]; exact List.mem_cons_self _ _
      · rcases ih hmem with h1 | h1
        · left; exact List.mem_cons_of_mem _ h1
        · right; exact h1

theorem mem_assign_first_of_ne (k : K) (v : V) (b : hashmap_bucket K V) (p : K × V)
    (h : p ∈ b) (hp : p.1 ≠ k) : p ∈ assign_first k v b := by
  induction b with
  | nil => cases h
  | cons kv rest ih =>
    unfold assign_first
    by_cases hk : kv.1 = k
    · rw [if_pos hk]
      rcases List.mem_cons.1 h with heq | hmem
      · exact absurd (by rw [heq]; exact hk) hp
      · exact List.mem_cons_of_mem _ hmem
    · rw [if_neg hk]
      rcases List.mem_cons.1 h with heq | hmem
      · rw [heq]; exact List.mem_cons_self _ _
      · exact List.mem_cons_of_mem _ (ih hmem)

/-- The write through the reference of `at (k)` in a well-formed container that contains `k`:
the container stays well-formed, `k` has the written value, and every other key answers
`contains_key` and `at` as before; the size and the capacity do not change. -/
theorem assign_spec {m : HashMap K V} (hwf : WellFormed stdHash m) (k : K) (v : V)
    (hc : contains_key stdHash m k = true) (j : Nat)
    (hj : hash stdHash k m._capacity = (j : Int)) :
    WellFormed stdHash { m with _buckets := m._buckets.modify (assign_first k v) j } ∧
    contains_key stdHash { m with _buckets := m._buckets.modify (assign_first k v) j } k = true ∧
    «at» stdHash { m with _buckets := m._buckets.modify (assign_first k v) j } k = .ok v ∧
    ∀ k', k' ≠ k →
      contains_key stdHash { m with _buckets := m._buckets.modify (assign_first k v) j } k' =
        contains_key stdHash m k' ∧
      «at» stdHash { m with _buckets := m._buckets.modify (assign_first k v) j } k' =
        «at» stdHash m k' := by
  obtain ⟨w, hw⟩ := (contains_key_iff_exists_mem_bucket stdHash m k).1 hc
  rw [hj, bucket_at_natCast] at hw
  have hjlen : j < m._buckets.length := by
    by_contra hge
    rw [getD_nil_of_length_le _ (by omega)] at hw
    cases hw
  obtain ⟨l₁, b, l₂, hbs, hl, hmod⟩ := List.exists_of_modify (assign_first k v) hjlen
  have hb : m._buckets.getD j [] = b := by
    subst hl
    rw [hbs, List.getD_eq_getElem?_getD, List.getElem?_append_right (Nat.le_refl _)]
    simp
  rw [hb] at hw
  have hkeys : ((m._buckets.modify (assign_first k v) j).flatten.map Prod.fst) =
      m._buckets.flatten.map Prod.fst := by
    rw [hmod]
    conv_rhs => rw [hbs]
    simp only [List.flatten_append, List.flatten_cons, List.map_append, map_fst_assign_first]
  have hself : (k, v) ∈ (m._buckets.modify (assign_first k v) j).flatten := by
    rw [hmod]
    simp only [List.flatten_append, List.flatten_cons, List.mem_append]
    exact Or.inr (Or.inl (mem_assign_first_self k v b ⟨w, hw⟩))
  have hsub : ∀ p, p ∈ (m._buckets.modify (assign_first k v) j).flatten →
      p ∈ m._buckets.flatten ∨ p = (k, v) := by
    intro p hp
    rw [hmod] at hp
    rw [hbs]
    simp only [List.flatten_append, List.flatten_cons, List.mem_append] at hp ⊢
    rcases hp with h | h | h
    · exact Or.inl (Or.inl h)
    · rcases mem_of_mem_assign_first k v b p h with h1 | h1
      · exact Or.inl (Or.inr (Or.inl h1))
      · exact Or.inr h1
    · exact Or.inl (Or.inr (Or.inr h))
  have hsup : ∀ p, p ∈ m._buckets.flatten → p.1 ≠ k →
      p ∈ (m._buckets.modify (assign_first k v) j).flatten := by
    intro p hp hpk
    rw [hmod]
    rw [hbs] at hp
    simp only [List.flatten_append, List.flatten_cons, List.mem_append] at hp ⊢
    rcases hp with h | h | h
    · exact Or.inl h
    · exact Or.inr (Or.inl (mem_assign_first_of_ne k v b p h hpk))
    · exact Or.inr (Or.inr h)
  have hwf' : WellFormed stdHash
      { m with _buckets := m._buckets.modify (assign_first k v) j } := by
    refine ⟨?_, hwf.capacity_pow2, ?_, ?_, ?_⟩
    · show (((m._buckets.modify (assign_first k v) j).length : Nat) : Int) = m._capacity
      rw [List.length_modify]
      exact hwf.buckets_length
    · show m._size = _
      rw [← List.length_flatten, ← List.length_map _ Prod.fst, hkeys, List.length_map,
        List.length_flatten]
      exact hwf.size_eq
    · intro i p hp
      show hash stdHash p.1 m._capacity = (i : Int)
      have hp' : p ∈ (m._buckets.modify (assign_first k v) j).getD i [] := hp
      by_cases hij : j = i
      · subst hij
        rw [getD_modify_eq _ _ _ hjlen, hb] at hp'
        rcases mem_of_mem_assign_first k v b p hp' with h1 | h1
        · exact hwf.placement j p (by rw [hb]; exact h1)
        · rw [h1]; exact hj
      · rw [getD_modify_ne _ _ hij] at hp'
        exact hwf.placement i p hp'
    · show ((m._buckets.modify (assign_first k v) j).flatten.map Prod.fst).Nodup
      rw [hkeys]
      exact hwf.unique_keys
  refine ⟨hwf', (contains_key_iff stdHash hwf' k).2 ⟨v, hself⟩,
    (at_eq_ok_iff stdHash hwf' k v).2 hself, ?_⟩
  intro k' hk'
  refine lookup_congr stdHash hwf hwf' k' (fun u => ?_)
  constructor
  · intro h
    rcases hsub (k', u) h with h1 | h1
    · exact h1
    · exact absurd (Prod.mk.inj h1).1 hk'
  · intro h
    exact hsup (k', u) h hk'

end Assign

section Upsert
variable {K V : Type} [DecidableEq K] (stdHash : K → Nat)

open HashMap

/-- The statement `(*this)[k] = v` on a well-formed container does not throw; afterwards the
container is well-formed, `k` is contained with value `v`, and every other key answers
`contains_key` and `at` as before. -/
theorem operator_index_assign_spec [Inhabited V] {m : HashMap K V}
    (hwf : WellFormed stdHash m) (k : K) (v : V) :
    ∃ m' : HashMap K V, operator_index_assign stdHash m k v = .ok m' ∧
      WellFormed stdHash m' ∧ contains_key stdHash m' k = true ∧
      «at» stdHash m' k = .ok v ∧
      ∀ k', k' ≠ k →
        contains_key stdHash m' k' = contains_key stdHash m k' ∧
        «at» stdHash m' k' = «at» stdHash m k' := by
  have hwf1 := operator_index_wellFormed stdHash hwf k
  have hfacts : contains_key stdHash (operator_index stdHash m k).1 k = true ∧
      ∀ k', k' ≠ k →
        contains_key stdHash (operator_index stdHash m k).1 k' = contains_key stdHash m k' ∧
        «at» stdHash (operator_index stdHash m k).1 k' = «at» stdHash m k' := by
    cases hc : contains_key stdHash m k with
    | true =>
      simp only [operator_index, hc, Bool.not_true, Bool.false_eq_true, if_false]
      exact ⟨trivial, fun _ _ => ⟨trivial, trivial⟩⟩
    | false =>
      obtain ⟨l1, _, l3⟩ := insert_absent_lookup stdHash hwf k (Inhabited.default : V) hc
      simp only [operator_index, hc, Bool.not_false, if_true]
      exact ⟨l1, l3⟩
  obtain ⟨hc1, hother⟩ := hfacts
  obtain ⟨u, hu⟩ := at_isOk_of_contains_key stdHash hwf1 k hc1
  obtain ⟨j, hj, _⟩ := hash_eq_natCast stdHash k hwf1.capacity_pow2.2
  obtain ⟨a1, a2, a3, a4⟩ := assign_spec stdHash hwf1 k v hc1 j hj
  have hpair : operator_index stdHash m k = ((operator_index stdHash m k).1, .ok u) := by
    have : (operator_index stdHash m k).2 = .ok u := hu
    rw [← this]
  refine ⟨_, ?_, a1, a2, a3, fun k' hk' => ?_⟩
  · unfold operator_index_assign
    rw [hpair]
    simp only [hj]
    have hneg : ¬ ((j : Int) < 0) := by omega
    simp only [hneg, if_false, Int.toNat_ofNat]
  · obtain ⟨b1, b2⟩ := a4 k' hk'
    obtain ⟨c1, c2⟩ := hother k' hk'
    exact ⟨b1.trans c1, b2.trans c2⟩

end Upsert

section Update

open HashMap

theorem update_cons (stringHash : String → Nat) (d : Dictionary) (p : String × String)
    (rest : List (String × String)) :
    Dictionary.update stringHash d (p :: rest) =
      match HashMap.operator_index_assign stringHash d p.1 p.2 with
      | .error e => .error e
      | .ok d1 => Dictionary.update stringHash d1 rest := rfl

/-- `Dictionary::update` on a well-formed dictionary does not throw; afterwards a key is
contained iff it was contained or occurs in the range, a key outside the range keeps its
value, and a key of the range has the value of its last occurrence. -/
theorem update_spec (stringHash : String → Nat) (ps : List (String × String)) {d : Dictionary}
    (hwf : WellFormed stringHash d) :
    ∃ d' : Dictionary, Dictionary.update stringHash d ps = .ok d' ∧
      WellFormed stringHash d' ∧
      (∀ k, contains_key stringHash d' k =
        (contains_key stringHash d k || decide (k ∈ ps.map Prod.fst))) ∧
      (∀ k, k ∉ ps.map Prod.fst → «at» stringHash d' k = «at» stringHash d k) ∧
      (∀ l₁ k v l₂, ps = l₁ ++ (k, v) :: l₂ → k ∉ l₂.map Prod.fst →
        «at» stringHash d' k = .ok v) := by
  induction ps generalizing d with
  | nil =>
    refine ⟨d, rfl, hwf, fun k => by simp, fun _ _ => rfl, ?_⟩
    intro l₁ k v l₂ h
    cases l₁ <;> cases h
  | cons p rest ih =>
    obtain ⟨d1, h1, h2, h3, h4, h5⟩ := operator_index_assign_spec stringHash hwf p.1 p.2
    obtain ⟨d', i1, i2, i3, i4, i5⟩ := ih h2
    refine ⟨d', ?_, i2, ?_, ?_, ?_⟩
    · rw [update_cons, h1]
      exact i1
    · intro k
      rw [i3 k]
      by_cases hk : k = p.1
      · subst hk; simp [h3]
      · rw [(h5 k hk).1]
        have hb : (k == p.1) = false := beq_eq_false_iff_ne.2 hk
        simp [hb]
    · intro k hk
      simp only [List.map_cons, List.mem_cons, not_or] at hk
      rw [i4 k hk.2, (h5 k hk.1).2]
    · intro l₁ k v l₂ hsplit hlast
      cases l₁ with
      | nil =>
        simp only [List.nil_append, List.cons.injEq] at hsplit
        obtain ⟨hp, hrest⟩ := hsplit
        subst hrest
        rw [i4 k hlast]
        have : p.1 = k := by rw [hp]
        rw [← this, h4, hp]
      | cons q l₁' =>
        simp only [List.cons_append, List.cons.injEq] at hsplit
        exact i5 l₁' k v l₂ hsplit.2 hlast

end Update

section Claim15

open HashMap

/-- C15: `Dictionary::update` is an upsert.  On a well-formed dictionary `d` and a finite
sequence `ps` of pairs it does not throw, and afterwards every key occurring in `ps` is contained
with the value of its last occurrence in `ps`, every key not occurring in `ps` keeps its
presence and value, and `size ()` has grown by the number of distinct keys of `ps` that were
absent from `d`.  For every hash function, the empty `Dictionary` updated with
`[("x", "1"), ("y", "2")]` contains both keys. -/
theorem update_correct (stringHash : String → Nat) (d : Dictionary)
    (hwf : WellFormed stringHash d) (ps : List (String × String)) :
    (∃ d' : Dictionary, Dictionary.update stringHash d ps = .ok d' ∧
      (∀ k ∈ ps.map Prod.fst, contains_key stringHash d' k = true) ∧
      (∀ l₁ k v l₂, ps = l₁ ++ (k, v) :: l₂ → k ∉ l₂.map Prod.fst →
        «at» stringHash d' k = .ok v) ∧
      (∀ k, k ∉ ps.map Prod.fst →
        contains_key stringHash d' k = contains_key stringHash d k ∧
        «at» stringHash d' k = «at» stringHash d k) ∧
      size d' = size d +
        ((((ps.map Prod.fst).dedup.filter
          (fun k => !contains_key stringHash d k)).length : Nat) : Int)) ∧
    (∀ h : String → Nat, ∃ d' : Dictionary,
      Dictionary.update h (HashMap.default : Dictionary) [("x", "1"), ("y", "2")] = .ok d' ∧
      contains_key h d' "x" = true ∧ contains_key h d' "y" = true) := by
  constructor
  · obtain ⟨d', h1, h2, h3, h4, h5⟩ := update_spec stringHash ps hwf
    refine ⟨d', h1, ?_, h5, ?_, ?_⟩
    · intro k hk
      rw [h3 k]
      simp [hk]
    · intro k hk
      refine ⟨?_, h4 k hk⟩
      rw [h3 k]
      simp [hk]
    · have hnd : (d._buckets.flatten.map Prod.fst ++
          (ps.map Prod.fst).dedup.filter (fun k => !contains_key stringHash d k)).Nodup := by
        rw [List.nodup_append]
        refine ⟨hwf.unique_keys, (List.nodup_dedup _).filter _, ?_⟩
        intro k hk1 hk2
        have hc := (contains_key_iff_mem_keys stringHash hwf k).2 hk1
        rw [List.mem_filter] at hk2
        simp [hc] at hk2
      have hmem : ∀ k, k ∈ (d._buckets.flatten.map Prod.fst ++
          (ps.map Prod.fst).dedup.filter (fun k => !contains_key stringHash d k)) ↔
          contains_key stringHash d' k = true := by
        intro k
        rw [h3 k, List.mem_append, ← contains_key_iff_mem_keys stringHash hwf, List.mem_filter,
          List.mem_dedup]
        cases hc : contains_key stringHash d k <;> simp
      have := size_eq_length_of_keys stringHash h2 _ hnd hmem
      show d'._size = d._size + _
      rw [this, List.length_append, List.length_map, List.length_flatten, hwf.size_eq]
      push_cast
      rfl
  · intro h
    obtain ⟨d', h1, _, h3, _, _⟩ :=
      update_spec h [("x", "1"), ("y", "2")] (default_wellFormed h (K := String) (V := String))
    exact ⟨d', h1, by rw [h3]; simp, by rw [h3]; simp⟩

theorem update_correct_witness :
    WellFormed strHash example_dict ∧
    ∃ d' : Dictionary,
      Dictionary.update strHash example_dict [("x", "7"), ("y", "2"), ("x", "9")] = .ok d' ∧
      «at» strHash d' "x" = .ok "9" ∧
      size d' = size example_dict +
        (((([("x", "7"), ("y", "2"), ("x", "9")] : List (String × String)).map
          Prod.fst).dedup.filter
            (fun k => !contains_key strHash example_dict k)).length : Nat) :=
  have ⟨d', h1, _, h3, _, h5⟩ :=
    (update_correct strHash example_dict example_dict_wellFormed
      [("x", "7"), ("y", "2"), ("x", "9")]).1
  ⟨example_dict_wellFormed, d', h1,
    h3 [("x", "7"), ("y", "2")] "x" "9" [] rfl (by simp), h5⟩

end Claim15

section Claim16to19
variable {K V : Type} [DecidableEq K] (stdHash : K → Nat)

open HashMap

/-- C16: after `clear ()` on a well-formed container `size ()` is 0, `empty ()` is true,
`capacity ()` is as before, there are `capacity ()` buckets and every one of them is empty, and
`contains_key` is false for every key. -/
theorem clear_correct (m : HashMap K V) (hwf : WellFormed stdHash m) :
    size (clear m) = 0 ∧ empty (clear m) = true ∧ capacity (clear m) = capacity m ∧
    ((clear m)._buckets.length : Int) = capacity m ∧
    (∀ b ∈ (clear m)._buckets, b = []) ∧
    (∀ i : Int, bucket_at (clear m)._buckets i = []) ∧
    ∀ k, contains_key stdHash (clear m) k = false := by
  obtain ⟨hwf', hfl⟩ := clear_spec stdHash hwf
  refine ⟨rfl, rfl, rfl, hwf'.buckets_length, ?_, ?_, ?_⟩
  · intro b hb
    exact List.eq_of_mem_replicate hb
  · intro i
    unfold bucket_at
    split
    · rfl
    · exact getD_replicate_nil _ _
  · intro k
    rw [contains_key_eq_false_iff stdHash hwf', hfl]
    intro v hv
    cases hv

theorem clear_correct_witness :
    WellFormed natHash example_map2 ∧ size (clear example_map2) = 0 ∧
    capacity (clear example_map2) = 16 ∧ contains_key natHash (clear example_map2) 3 = false :=
  have h := clear_correct natHash example_map2 example_map2_wellFormed
  ⟨example_map2_wellFormed, h.1, h.2.2.1.trans (by decide), h.2.2.2.2.2.2 3⟩

/-- C18: in `erase` on a well-formed container and a contained key, the scan loop over the
bucket of the key assigns the local `index` (the no-match path is not taken), the assigned index
is within the bucket, the pair at that index has the key, it is the only stored pair with the
key, and it is the pair that `erase` removes. -/
theorem erase_scan_assigns (m : HashMap K V) (hwf : WellFormed stdHash m) (k : K)
    (hpres : contains_key stdHash m k = true) :
    ∃ (index : Nat) (v : V),
      erase_scan k (bucket_at m._buckets (hash stdHash k m._capacity)) 0 none =
        some (index : Int) ∧
      index < (bucket_at m._buckets (hash stdHash k m._capacity)).length ∧
      (bucket_at m._buckets (hash stdHash k m._capacity))[index]? = some (k, v) ∧
      (∀ p ∈ m._buckets.flatten, p.1 = k → p = (k, v)) ∧
      m._buckets.flatten.Perm
        ((k, v) :: (erase_at m._buckets (hash stdHash k m._capacity) (index : Int)).flatten) := by
  obtain ⟨index, v, h1, h2, _, h4⟩ := erase_remove_spec stdHash hwf k hpres
  refine ⟨index, v, h1, ?_, h2, ?_, h4⟩
  · by_contra hge
    rw [List.getElem?_eq_none (by omega)] at h2
    cases h2
  · rintro ⟨k', w⟩ hp hk
    simp only at hk
    subst hk
    have hv : (k', v) ∈ m._buckets.flatten := h4.symm.subset (List.mem_cons_self _ _)
    rw [value_unique hwf.unique_keys hp hv]

theorem erase_scan_assigns_witness :
    WellFormed natHash example_map2 ∧ contains_key natHash example_map2 5 = true ∧
    ∃ (index : Nat) (v : Nat),
      erase_scan 5 (bucket_at example_map2._buckets (hash natHash 5 example_map2._capacity))
        0 none = some (index : Int) ∧
      (bucket_at example_map2._buckets (hash natHash 5 example_map2._capacity))[index]? =
        some (5, v) :=
  have ⟨index, v, h1, _, h3, _⟩ :=
    erase_scan_assigns natHash example_map2 example_map2_wellFormed 5 (by decide)
  ⟨example_map2_wellFormed, by decide, index, v, h1, h3⟩

/-- The inner loop of `operator++` tests its condition last at the bucket where it stops, and
that test reads the bucket array. -/
theorem skip_empty_mem_reads (m : HashMap K V) (fuel : Nat) (bucket : Int) :
    skip_empty m fuel bucket ∈ skip_empty_reads m fuel bucket := by
  induction fuel generalizing bucket with
  | zero => simp [skip_empty, skip_empty_reads]
  | succ fuel ih =>
    unfold skip_empty skip_empty_reads
    split
    · exact List.mem_cons_of_mem _ (ih (bucket + 1))
    · exact List.mem_cons_self _ _

/-- Whenever `operator++` leaves its bucket and returns the end cursor, it has read the bucket
array at an index that is not below the capacity. -/
theorem next_reads_past_capacity (m : HashMap K V) (it : ConstIterator)
    (hlast : it._index + 1 ≥ ((bucket_at m._buckets it._bucket).length : Int))
    (hend : (it.next m)._kv = none) :
    ∃ i ∈ it.next_reads m, m._capacity ≤ i := by
  refine ⟨skip_empty m (m._capacity - (it._bucket + 1)).toNat (it._bucket + 1), ?_, ?_⟩
  · unfold ConstIterator.next_reads
    simp only [hlast, if_true, List.mem_append]
    exact Or.inl (Or.inr (skip_empty_mem_reads m _ _))
  · unfold ConstIterator.next at hend
    simp only [hlast, if_true] at hend
    by_contra hlt
    rw [if_pos (by omega)] at hend
    cases hend

/-- C19, the code at the failing input: `example_map` is well-formed with capacity 16 and its
only pair is in bucket 3; `operator++` on the cursor on that pair reads the bucket array at the
indices 3, 4, ..., 15 and then at index 16, which is the capacity. -/
theorem next_reads_out_of_bounds :
    WellFormed natHash example_map ∧ capacity example_map = 16 ∧
    HashMap.begin example_map = example_cursor ∧
    example_cursor.deref example_map = some (3, 30) ∧
    example_cursor.next_reads example_map =
      [3, 4, 5, 6, 7, 8, 9, 10, 11, 12, 13, 14, 15, 16] ∧
    capacity example_map ∈ example_cursor.next_reads example_map :=
  ⟨example_map_wellFormed, by decide, by decide, by decide, by decide, by decide⟩

end Claim16to19

section Claim17and20
variable {K V : Type} [DecidableEq K] (stdHash : K → Nat)

open HashMap

/-- `insert` keeps the load factor below `MAX_LOAD`. -/
theorem insert_load_invariant {m : HashMap K V} (hwf : WellFormed stdHash m)
    (hload : 4 * m._size < 3 * m._capacity) (hs : 0 ≤ m._size) (key : K) (value : V) :
    4 * (insert stdHash m key value).2._size < 3 * (insert stdHash m key value).2._capacity ∧
    0 ≤ (insert stdHash m key value).2._size := by
  cases hc : contains_key stdHash m key with
  | true => rw [insert_present_spec stdHash m key value hc]; exact ⟨hload, hs⟩
  | false =>
    obtain ⟨_, _, h3, _, h5⟩ := insert_absent_spec stdHash hwf key value hc
    have := hwf.capacity_pow2.1
    refine ⟨?_, ?_⟩
    · rw [h3, h5]
      rcases (show m._capacity = 1 ∨ 2 ≤ m._capacity by omega) with h1 | h1 <;>
        split <;> omega
    · rw [h3]; omega

/-- `erase` keeps the load factor below `MAX_LOAD`. -/
theorem erase_load_invariant {m : HashMap K V} (hwf : WellFormed stdHash m)
    (hload : 4 * m._size < 3 * m._capacity) (hs : 0 ≤ m._size) (fuel : Nat) (key : K)
    (r : Bool × HashMap K V) (he : erase stdHash fuel m key = some r) :
    WellFormed stdHash r.2 ∧ 4 * r.2._size < 3 * r.2._capacity ∧ 0 ≤ r.2._size := by
  cases hc : contains_key stdHash m key with
  | false =>
    rw [erase_absent_spec stdHash m key fuel hc] at he
    cases he
    exact ⟨hwf, hload, hs⟩
  | true =>
    obtain ⟨n, hn⟩ := hwf.capacity_pow2.2
    obtain ⟨m', _, h1, h2, h3, h4, _, h6⟩ :=
      erase_present_spec stdHash hwf key hc n (max fuel (n + 2)) hn (le_max_right _ _)
    rw [erase_mono stdHash m key fuel _ r (le_max_left _ _) he] at h1
    cases h1
    refine ⟨h2, ?_, h4⟩
    rcases h6 with ⟨h0, hc1⟩ | ⟨_, j, hj, hcap, _, hall⟩
    · show 4 * m'._size < 3 * m'._capacity
      rw [h0, hc1]; norm_num
    · show 4 * m'._size < 3 * m'._capacity
      cases j with
      | zero =>
        rw [hcap, Nat.sub_zero, ← hn, h3]
        omega
      | succ j =>
        have := hall j (by omega)
        have hpw : (2 : Int) ^ (n - j) = 2 * 2 ^ (n - (j + 1)) := by
          rw [← pow_succ']
          congr 1
          omega
        rw [hcap]
        have hpos : (0 : Int) < 2 ^ (n - (j + 1)) := by positivity
        omega

/-- Every container reachable by `insert`, `erase`, mutable `operator[]` and `clear` calls is
well-formed and has load factor below `MAX_LOAD`. -/
theorem reachableAll_invariant [Inhabited V] {m : HashMap K V}
    (hr : ReachableAll stdHash m) :
    WellFormed stdHash m ∧ 4 * m._size < 3 * m._capacity ∧ 0 ≤ m._size := by
  induction hr with
  | default =>
    refine ⟨default_wellFormed stdHash, ?_, ?_⟩ <;> simp [HashMap.default, DEF_CAP]
  | @insert m key value _ ih =>
    obtain ⟨hwf, hload, hs⟩ := ih
    exact ⟨insert_wellFormed stdHash hwf key value,
      insert_load_invariant stdHash hwf hload hs key value⟩
  | @erase m fuel key r _ he ih =>
    obtain ⟨hwf, hload, hs⟩ := ih
    exact erase_load_invariant stdHash hwf hload hs fuel key r he
  | @operator_index m key _ ih =>
    obtain ⟨hwf, hload, hs⟩ := ih
    refine ⟨operator_index_wellFormed stdHash hwf key, ?_⟩
    unfold operator_index
    cases hc : contains_key stdHash m key with
    | true => simpa using ⟨hload, hs⟩
    | false => simpa using insert_load_invariant stdHash hwf hload hs key Inhabited.default
  | @clear m _ ih =>
    obtain ⟨hwf, _, _⟩ := ih
    refine ⟨(clear_spec stdHash hwf).1, ?_, ?_⟩
    · show 4 * (0 : Int) < 3 * m._capacity
      have := hwf.capacity_pow2.1
      omega
    · show (0 : Int) ≤ 0
      exact le_refl _

/-- C20: for every container reachable from the default-constructed one by any sequence of
`insert`, `erase`, mutable `operator[]` and `clear` calls, `size / capacity < 0.75`, that is
`4 * size < 3 * capacity`; in particular a reachable container of capacity 1 is empty. -/
theorem load_factor_below_max [Inhabited V] (m : HashMap K V) (hr : ReachableAll stdHash m) :
    4 * size m < 3 * capacity m ∧ (capacity m = 1 → size m = 0) := by
  obtain ⟨_, hload, hs⟩ := reachableAll_invariant stdHash hr
  refine ⟨hload, ?_⟩
  intro hc
  have hc' : m._capacity = 1 := hc
  show m._size = 0
  omega

theorem load_factor_below_max_witness :
    ReachableAll natHash (clear (operator_index natHash example_map2 9).1) ∧
    ReachableAll natHash (operator_index natHash example_map2 9).1 ∧
    4 * size (operator_index natHash example_map2 9).1 <
      3 * capacity (operator_index natHash example_map2 9).1 :=
  have hr : ReachableAll natHash (operator_index natHash example_map2 9).1 :=
    ReachableAll.operator_index 9
      (ReachableAll.insert 5 50 (ReachableAll.insert 3 30 ReachableAll.default))
  ⟨ReachableAll.clear hr, hr, (load_factor_below_max natHash _ hr).1⟩

theorem example_floor_reachable : Reachable natHash example_floor :=
  Reachable.erase (r := (true, example_floor)) 17 3
    (Reachable.insert 3 30 Reachable.default) (by decide)

/-- C17, the claim as stated fails at the floor capacity 1.  From the reachable empty container
of capacity 1, the successful `insert (0, 0)` doubles the capacity to 2 and the successful
`erase (0)` that follows shrinks it back to 1; and the successful `erase (3)` that shrinks
`example_map` from capacity 16 to 1 is followed by the successful `insert (0, 0)` that doubles
the capacity to 2. -/
theorem resize_thrashing_counterexample :
    Reachable natHash example_floor ∧ capacity example_floor = 1 ∧
    (insert natHash example_floor 0 0).1 = true ∧
    capacity (insert natHash example_floor 0 0).2 = 2 ∧
    erase natHash 17 (insert natHash example_floor 0 0).2 0 = some (true, example_floor) ∧
    Reachable natHash example_map ∧ capacity example_map = 16 ∧
    erase natHash 17 example_map 3 = some (true, example_floor) :=
  ⟨example_floor_reachable, by decide, by decide, by decide, by decide,
    Reachable.insert 3 30 Reachable.default, by decide, by decide⟩

/-- C17, amended: for every container reachable from the default-constructed one by `insert`
and `erase` calls, a successful `insert` that doubles a capacity other than 1 is never
immediately followed by a successful `erase` that changes the capacity, and a successful `erase`
that shrinks the capacity to a value other than 1 is never immediately followed by a successful
`insert` that changes the capacity. -/
theorem resize_hysteresis (m : HashMap K V) (hr : Reachable stdHash m) :
    (∀ (k : K) (v : V) (k' : K) (fuel : Nat) (m2 : HashMap K V),
      contains_key stdHash m k = false →
      capacity (insert stdHash m k v).2 ≠ capacity m → capacity m ≠ 1 →
      erase stdHash fuel (insert stdHash m k v).2 k' = some (true, m2) →
      capacity m2 = capacity (insert stdHash m k v).2) ∧
    (∀ (k : K) (fuel : Nat) (m1 : HashMap K V) (k' : K) (v : V),
      erase stdHash fuel m k = some (true, m1) →
      capacity m1 ≠ capacity m → capacity m1 ≠ 1 →
      contains_key stdHash m1 k' = false →
      (insert stdHash m1 k' v).1 = true ∧
      capacity (insert stdHash m1 k' v).2 = capacity m1) := by
  obtain ⟨hwf, hload, hs⟩ := reachable_invariant stdHash hr
  have hc1 := hwf.capacity_pow2.1
  constructor
  · intro k v k' fuel m2 habs hchg hne he
    obtain ⟨_, w2, w3, _, w5⟩ := insert_absent_spec stdHash hwf k v habs
    have hchg' : (insert stdHash m k v).2._capacity ≠ m._capacity := hchg
    have hne' : m._capacity ≠ 1 := hne
    have hgrow : 3 * m._capacity ≤ 4 * (m._size + 1) ∧
        (insert stdHash m k v).2._capacity = 2 * m._capacity := by
      by_cases h : 3 * m._capacity ≤ 4 * (m._size + 1)
      · rw [if_pos h] at w5; exact ⟨h, w5⟩
      · rw [if_neg h] at w5; exact absurd w5 hchg'
    cases hc : contains_key stdHash (insert stdHash m k v).2 k' with
    | false =>
      rw [erase_absent_spec stdHash _ k' fuel hc] at he
      cases he
    | true =>
      obtain ⟨n, hn⟩ := w2.capacity_pow2.2
      obtain ⟨m', _, e1, _, e3, _, _, e6⟩ :=
        erase_present_spec stdHash w2 k' hc n (max fuel (n + 2)) hn (le_max_right _ _)
      rw [erase_mono stdHash _ k' fuel _ _ (le_max_left _ _) he] at e1
      cases e1
      show m2._capacity = (insert stdHash m k v).2._capacity
      rcases e6 with ⟨e0, _⟩ | ⟨_, j, _, ecap, _, eall⟩
      · rw [e3, w3] at e0
        omega
      · cases j with
        | zero => rw [ecap, Nat.sub_zero, hn]
        | succ j =>
          have h0 := eall 0 (by omega)
          rw [Nat.sub_zero, ← hn, e3, w3, hgrow.2] at h0
          omega
  · intro k fuel m1 k' v he hchg hne habs
    have hchg' : m1._capacity ≠ m._capacity := hchg
    have hne' : m1._capacity ≠ 1 := hne
    cases hc : contains_key stdHash m k with
    | false =>
      rw [erase_absent_spec stdHash m k fuel hc] at he
      cases he
    | true =>
      obtain ⟨n, hn⟩ := hwf.capacity_pow2.2
      obtain ⟨m', _, e1, e2, _, _, _, e6⟩ :=
        erase_present_spec stdHash hwf k hc n (max fuel (n + 2)) hn (le_max_right _ _)
      rw [erase_mono stdHash m k fuel _ _ (le_max_left _ _) he] at e1
      cases e1
      obtain ⟨w1, _, _, _, w5⟩ := insert_absent_spec stdHash e2 k' v habs
      refine ⟨w1, ?_⟩
      show (insert stdHash m1 k' v).2._capacity = m1._capacity
      rw [w5]
      rcases e6 with ⟨_, ecap⟩ | ⟨_, j, _, ecap, ele, eall⟩
      · exact absurd ecap hne'
      · cases j with
        | zero =>
          rw [Nat.sub_zero, ← hn] at ecap
          exact absurd ecap hchg'
        | succ j =>
          have hj := eall j (by omega)
          have hpw : (2 : Int) ^ (n - j) = 2 * 2 ^ (n - (j + 1)) := by
            rw [← pow_succ']
            congr 1
            omega
          rw [hpw, ← ecap] at hj
          rw [← ecap] at ele
          have hpos := e2.capacity_pow2.1
          rw [if_neg (by omega)]

theorem resize_hysteresis_witness :
    Reachable natHash example_map2 ∧
    erase natHash 17 example_map2 3 = some (true, ⟨1, 4, [[], [(5, 50)], [], []]⟩) ∧
    (insert natHash (⟨1, 4, [[], [(5, 50)], [], []]⟩ : HashMap Nat Nat) 6 60).1 = true ∧
    capacity (insert natHash (⟨1, 4, [[], [(5, 50)], [], []]⟩ : HashMap Nat Nat) 6 60).2 =
      capacity (⟨1, 4, [[], [(5, 50)], [], []]⟩ : HashMap Nat Nat) ∧
    Reachable natHash (⟨2, 4, [[], [(5, 50)], [(6, 60)], []]⟩ : HashMap Nat Nat) ∧
    capacity (insert natHash
      (⟨2, 4, [[], [(5, 50)], [(6, 60)], []]⟩ : HashMap Nat Nat) 7 70).2 = 8 ∧
    ∃ m2, erase natHash 17 (insert natHash
        (⟨2, 4, [[], [(5, 50)], [(6, 60)], []]⟩ : HashMap Nat Nat) 7 70).2 5 = some (true, m2) ∧
      capacity m2 = capacity (insert natHash
        (⟨2, 4, [[], [(5, 50)], [(6, 60)], []]⟩ : HashMap Nat Nat) 7 70).2 :=
  have hr : Reachable natHash example_map2 :=
    Reachable.insert 5 50 (Reachable.insert 3 30 Reachable.default)
  have h := (resize_hysteresis natHash example_map2 hr).2 3 17
    ⟨1, 4, [[], [(5, 50)], [], []]⟩ 6 60 (by decide) (by decide) (by decide) (by decide)
  have hr1 : Reachable natHash (⟨1, 4, [[], [(5, 50)], [], []]⟩ : HashMap Nat Nat) :=
    Reachable.erase (r := (true, ⟨1, 4, [[], [(5, 50)], [], []]⟩)) 17 3 hr (by decide)
  have heq : (insert natHash (⟨1, 4, [[], [(5, 50)], [], []]⟩ : HashMap Nat Nat) 6 60).2 =
      ⟨2, 4, [[], [(5, 50)], [(6, 60)], []]⟩ := by decide
  have hr2 : Reachable natHash (⟨2, 4, [[], [(5, 50)], [(6, 60)], []]⟩ : HashMap Nat Nat) :=
    heq ▸ Reachable.insert 6 60 hr1
  have he : erase natHash 17 (insert natHash
      (⟨2, 4, [[], [(5, 50)], [(6, 60)], []]⟩ : HashMap Nat Nat) 7 70).2 5 =
      some (true, ⟨2, 8, [[], [], [], [], [], [], [(6, 60)], [(7, 70)]]⟩) := by decide
  ⟨hr, by decide, h.1, h.2, hr2, by decide, _, he,
    (resize_hysteresis natHash _ hr2).1 7 70 5 17 _ (by decide) (by decide) (by decide) he⟩

end Claim17and20

end HashMapDict
